import Mathlib

/-!
Shallow embedding of the maze program in `src/script.js`: the grid data
model, the randomized Prim-style maze generator (`MazeGrid.generateMaze`
and its helpers), the start/end selection routines, the A* solver
(`MazeGrid.solveMaze`) and the binary-heap `PriorityQueue`.

Conventions of the embedding:
* JS cell coordinates are arbitrary integers (direction stepping may leave
  the grid), so positions are `Int × Int`; `isValidCell` is the source's
  bounds check.
* `Math.random()`-driven choices are modelled by oracle functions
  `Nat → Nat`; `Math.floor(Math.random() * n)` becomes `randBelow (o k) n`,
  which can take any value in `[0, n)`, exactly the set of values the
  source expression can take.
* JS `Map`s are association lists, JS `undefined` is `Option.none`.
* The JS string keys `"row,col"` of the solver are in bijection with the
  coordinate pairs they encode, so solver keys are modelled as `Int × Int`.
-/

set_option maxRecDepth 4000

namespace Maze

/-- Direction of a wall of a cell, as in the source's string literals. -/
inductive Dir : Type where
  | top : Dir
  | right : Dir
  | bottom : Dir
  | left : Dir
deriving DecidableEq, Repr

/-- Opposite direction table from `MazeGrid.removeWall`. -/
def opposite : Dir → Dir
  | Dir.top => Dir.bottom
  | Dir.right => Dir.left
  | Dir.bottom => Dir.top
  | Dir.left => Dir.right

/-- Wall flags of one cell: `true` means the wall is present. -/
structure Walls : Type where
  top : Bool
  right : Bool
  bottom : Bool
  left : Bool
deriving DecidableEq, Repr

/-- One cell of `this.maze`: scratch flag, wall flags, membership flag. -/
structure Cell : Type where
  visited : Bool
  walls : Walls
  inMaze : Bool
deriving DecidableEq, Repr

/-- Cell state written by the reset loop of `generateMaze`:
`{visited:false, walls:{top,right,bottom,left:true}, inMaze:false}`. -/
def blankCell : Cell :=
  { visited := false
    walls := { top := true, right := true, bottom := true, left := true }
    inMaze := false }

/-- Grid coordinates `(row, col)`. -/
abbrev Pos : Type := Int × Int

/-- The grid model: `this.rows`, `this.cols` and the cell array
`this.maze`, modelled as a total function on integer coordinates (only
the valid rectangle is ever meaningful). -/
structure Grid : Type where
  rows : Int
  cols : Int
  maze : Int → Int → Cell

/-- Bounds check `MazeGrid.isValidCell`. -/
def isValidCell (g : Grid) (row col : Int) : Bool :=
  decide (0 ≤ row) && decide (row < g.rows) && decide (0 ≤ col) && decide (col < g.cols)

/-- Coordinate stepping `MazeGrid.getCellInDirection`. -/
def getCellInDirection (row col : Int) : Dir → Int × Int
  | Dir.top => (row - 1, col)
  | Dir.right => (row, col + 1)
  | Dir.bottom => (row + 1, col)
  | Dir.left => (row, col - 1)

/-- Read the wall flag of a cell in a given direction. -/
def getWall (w : Walls) : Dir → Bool
  | Dir.top => w.top
  | Dir.right => w.right
  | Dir.bottom => w.bottom
  | Dir.left => w.left

/-- Write the wall flag of a cell in a given direction. -/
def setWall (w : Walls) : Dir → Bool → Walls
  | Dir.top, b => { w with top := b }
  | Dir.right, b => { w with right := b }
  | Dir.bottom, b => { w with bottom := b }
  | Dir.left, b => { w with left := b }

/-- In-place mutation of one cell of the array, as a function update. -/
def updateCell (g : Grid) (row col : Int) (f : Cell → Cell) : Grid :=
  { g with maze := fun r c => if r = row ∧ c = col then f (g.maze r c) else g.maze r c }

/-- Wall removal `MazeGrid.removeWall`: clears the flag on the given cell,
then the opposite flag on the neighbor when that neighbor is in bounds. -/
def removeWall (g : Grid) (row col : Int) (d : Dir) : Grid :=
  if isValidCell g row col then
    let g1 := updateCell g row col fun cl => { cl with walls := setWall cl.walls d false }
    let nxt := getCellInDirection row col d
    if isValidCell g1 nxt.1 nxt.2 then
      updateCell g1 nxt.1 nxt.2 fun cl =>
        { cl with walls := setWall cl.walls (opposite d) false }
    else g1
  else g

/-- Frontier entry `[row, col, direction]` pushed by `addWalls`. -/
abbrev Wall : Type := Int × Int × Dir

/-- Frontier extension `MazeGrid.addWalls`: for each of the four
directions, push `[row, col, direction]` when the neighbor in that
direction is in bounds and not yet in the maze.  JS `push` appends. -/
def addWalls (g : Grid) (row col : Int) (walls : List Wall) : List Wall :=
  walls ++
    (([Dir.top, Dir.right, Dir.bottom, Dir.left].filter fun d =>
        let nxt := getCellInDirection row col d
        isValidCell g nxt.1 nxt.2 && !(g.maze nxt.1 nxt.2).inMaze).map
      fun d => (row, col, d))

/-- Manhattan distance `MazeGrid.getManhattanDistance`. -/
def getManhattanDistance (row1 col1 row2 col2 : Int) : Int :=
  (row1 - row2).natAbs + (col1 - col2).natAbs

/-- Model of `Math.floor(Math.random() * n)` where the `Math.random()`
draw is supplied by an oracle value `o`: any result in `[0, n)` is
possible, and the result is `0` when `n = 0`. -/
def randBelow (o : Nat) (n : Nat) : Nat :=
  if n = 0 then 0 else o % n

/-- JS `Array.prototype.splice(i, 1)`: the list without its `i`-th entry. -/
def spliceAt (walls : List Wall) (i : Nat) : List Wall :=
  walls.take i ++ walls.drop (i + 1)

/-- Reset loop at the top of `generateMaze`: every in-bounds cell is set
to the blank all-walls state, except the Start cell when
`keepStart && this.start` (JS `row !== this.start?.row || col !== this.start?.col`
resets everything when `this.start` is `null`). -/
def resetMaze (g : Grid) (keepStart : Bool) (start : Option Pos) : Grid :=
  { g with maze := fun r c =>
      if isValidCell g r c &&
          (!keepStart ||
            (match start with
              | none => true
              | some s => decide (r ≠ s.1) || decide (c ≠ s.2))) then
        blankCell
      else g.maze r c }

/-- The `if (keepStart && this.start)` block: re-mark Start as in-maze. -/
def markStartInMaze (g : Grid) (keepStart : Bool) (start : Option Pos) : Grid :=
  match keepStart, start with
  | true, some s => updateCell g s.1 s.2 fun cl => { cl with inMaze := true }
  | _, _ => g

/-- Choice of `startRow`/`startCol` for carving: the preserved Start in
keep-start mode, otherwise a random odd coordinate
`1 + 2 * Math.floor(Math.random() * ((rows - 1) / 2))`. -/
def seedPos (g : Grid) (keepStart : Bool) (start : Option Pos) (oR oC : Nat) : Pos :=
  match keepStart, start with
  | true, some s => s
  | _, _ =>
    (1 + 2 * (randBelow oR ((g.rows - 1) / 2).toNat : Int),
     1 + 2 * (randBelow oC ((g.cols - 1) / 2).toNat : Int))

/-- The `processChunk` carving loop of `generateMaze`: while the frontier
is non-empty, splice out a random entry; when its target cell is in
bounds and not yet in the maze, remove the wall, mark the target and push
its walls.  `fuel` only bounds the modelled recursion: `none` means the
fuel did not cover the run (the JS loop would simply keep going). -/
def carveLoop (oracle : Nat → Nat) : Nat → Grid → List Wall → Nat → Option Grid
  | _, g, [], _ => some g
  | 0, _, _ :: _, _ => none
  | fuel + 1, g, wl :: rest0, k =>
    let walls := wl :: rest0
    let i := randBelow (oracle k) walls.length
    let w := walls.getD i (0, 0, Dir.top)
    let rest := spliceAt walls i
    let nxt := getCellInDirection w.1 w.2.1 w.2.2
    if isValidCell g nxt.1 nxt.2 && !(g.maze nxt.1 nxt.2).inMaze then
      let g1 := removeWall g w.1 w.2.1 w.2.2
      let g2 := updateCell g1 nxt.1 nxt.2 fun cl => { cl with inMaze := true }
      carveLoop oracle fuel g2 (addWalls g2 nxt.1 nxt.2 rest) (k + 1)
    else
      carveLoop oracle fuel g rest (k + 1)

/-- The four grid corners, in the order the source lists them. -/
def cornerList (g : Grid) : List Pos :=
  [(0, 0), (0, g.cols - 1), (g.rows - 1, 0), (g.rows - 1, g.cols - 1)]

/-- Corner fallback of `selectNewEndPoint`: fold over the corners keeping
the first corner of strictly maximal Manhattan distance from `s`,
starting from `maxDistance = 0, bestCorner = corners[0]`. -/
def farthestCorner (g : Grid) (s : Pos) : Pos :=
  ((cornerList g).foldl
    (fun acc p =>
      let d := getManhattanDistance s.1 s.2 p.1 p.2
      if d > acc.1 then (d, p) else acc)
    (0, ((0, 0) : Pos))).2

/-- Sampling loop of `selectNewEndPoint`: up to `maxAttempts` random
cells, accepting the first at Manhattan distance `≥ minDistance` from
Start. -/
def selectNewEndPointLoop (g : Grid) (s : Pos) (minDistance : Int) (oracle : Nat → Nat) :
    Nat → Nat → Option Pos
  | 0, _ => none
  | attemptsLeft + 1, k =>
    let endRow : Int := (randBelow (oracle (2 * k)) g.rows.toNat : Nat)
    let endCol : Int := (randBelow (oracle (2 * k + 1)) g.cols.toNat : Nat)
    if getManhattanDistance s.1 s.2 endRow endCol ≥ minDistance then
      some (endRow, endCol)
    else
      selectNewEndPointLoop g s minDistance oracle attemptsLeft (k + 1)

/-- End-only reselection `MazeGrid.selectNewEndPoint` (rendering elided). -/
def selectNewEndPoint (g : Grid) (s : Pos) (minDistance : Int) (oracle : Nat → Nat) : Pos :=
  match selectNewEndPointLoop g s minDistance oracle 100 0 with
  | some e => e
  | none => farthestCorner g s

/-- Accumulator of the `selectPoints` sampling loop.  The `best...`
variables are declared without an initial value in the source, hence
`Option` (`none` = JS `undefined`). -/
structure SelBest : Type where
  maxManhattanDistance : Int
  bestStartRow : Option Int
  bestStartCol : Option Int
  bestEndRow : Option Int
  bestEndCol : Option Int
deriving DecidableEq, Repr

/-- Sampling loop of `selectPoints`: `maxAttempts` random pairs, keeping
the pair of strictly maximal Manhattan distance among the unequal ones. -/
def selectPointsLoop (g : Grid) (oracle : Nat → Nat) : Nat → Nat → SelBest → SelBest
  | 0, _, b => b
  | n + 1, k, b =>
    let startX : Int := (randBelow (oracle (4 * k)) g.rows.toNat : Nat)
    let startY : Int := (randBelow (oracle (4 * k + 1)) g.cols.toNat : Nat)
    let endX : Int := (randBelow (oracle (4 * k + 2)) g.rows.toNat : Nat)
    let endY : Int := (randBelow (oracle (4 * k + 3)) g.cols.toNat : Nat)
    let manhattanDistance := getManhattanDistance startX startY endX endY
    let b' :=
      if ((startX ≠ endX ∨ startY ≠ endY) ∧ manhattanDistance > b.maxManhattanDistance :
          Prop) then
        { maxManhattanDistance := manhattanDistance
          bestStartRow := some startX, bestStartCol := some startY
          bestEndRow := some endX, bestEndCol := some endY }
      else b
    selectPointsLoop g oracle n (k + 1) b'

/-- JS `>` between a possibly-`undefined` number and a number: comparisons
against `undefined`/`NaN` are `false`. -/
def jsGtNum : Option Int → Int → Bool
  | some a, b => decide (b < a)
  | none, _ => false

/-- Corner fallback of `selectPoints`: the distance is computed from the
(possibly still `undefined`) `bestStartRow`/`bestStartCol`, in which case
every comparison fails and `bestCorner` stays `[0, 0]`. -/
def selectPointsFallbackEnd (g : Grid) (bR bC : Option Int) : Pos :=
  ((cornerList g).foldl
    (fun acc p =>
      let d : Option Int :=
        match bR, bC with
        | some r, some c => some (getManhattanDistance r c p.1 p.2)
        | _, _ => none
      if jsGtNum d acc.1 then (d.getD 0, p) else acc)
    (0, ((0, 0) : Pos))).2

/-- Full Start/End selection `MazeGrid.selectPoints` (rendering elided):
returns the new `this.start` and `this.end`; a component is `none` when
the corresponding JS object field is `undefined`. -/
def selectPoints (g : Grid) (oracle : Nat → Nat) : Option Pos × Option Pos :=
  let b := selectPointsLoop g oracle 1000 0 ⟨0, none, none, none, none⟩
  let fb :=
    if b.maxManhattanDistance = 0 then
      let c := selectPointsFallbackEnd g b.bestStartRow b.bestStartCol
      (some c.1, some c.2)
    else (b.bestEndRow, b.bestEndCol)
  let startSel : Option Pos :=
    match b.bestStartRow, b.bestStartCol with
    | some r, some c => some (r, c)
    | _, _ => none
  let endSel : Option Pos :=
    match fb.1, fb.2 with
    | some r, some c => some (r, c)
    | _, _ => none
  (startSel, endSel)

/-- Result of `generateMaze`: the returned boolean, the mutated grid and
the Start/End held by the instance afterwards. -/
structure GenResult : Type where
  returnValue : Bool
  grid : Grid
  start : Option Pos
  endP : Option Pos

/-- Maze generation `MazeGrid.generateMaze(keepStart)`: the `isSolving`
guard, the reset loop, seed choice, frontier carving, then
`selectPoints` (full mode) or `selectNewEndPoint` (keep-start mode).
`none` only when `fuel` does not cover the carving run. -/
def generateMaze (g : Grid) (start endP : Option Pos) (keepStart isSolving : Bool)
    (minDistance : Int) (seedOR seedOC : Nat) (carveO selO : Nat → Nat) (fuel : Nat) :
    Option GenResult :=
  if isSolving then
    some ⟨false, g, start, endP⟩
  else
    let g1 := resetMaze g keepStart start
    let g2 := markStartInMaze g1 keepStart start
    let seed := seedPos g2 keepStart start seedOR seedOC
    let walls := addWalls g2 seed.1 seed.2 []
    match carveLoop carveO fuel g2 walls 0 with
    | none => none
    | some g3 =>
      if !keepStart then
        let se := selectPoints g3 selO
        some ⟨true, g3, se.1, se.2⟩
      else
        match start with
        | some s => some ⟨true, g3, some s, some (selectNewEndPoint g3 s minDistance selO)⟩
        | none => some ⟨true, g3, start, endP⟩

/-- Heap entry `{ val, priority }`. -/
structure PQEntry (α P : Type) : Type where
  val : α
  priority : P
deriving DecidableEq, Repr

/-- The ad hoc binary heap `PriorityQueue` over `this.values`.  The JS
number comparisons `<=` / `<` are passed explicitly so that the same
code models both ordinary numeric priorities and the `undefined`/`NaN`
propagation of JS arithmetic. -/
structure PriorityQueue (α P : Type) : Type where
  values : List (PQEntry α P)
deriving DecidableEq, Repr

namespace PriorityQueue

/-- Swap two positions of the array (both in range in every use). -/
def swapList {α P : Type} (l : List (PQEntry α P)) (i j : Nat) : List (PQEntry α P) :=
  match l.get? i, l.get? j with
  | some a, some b => (l.set i b).set j a
  | _, _ => l

theorem swapList_length {α P : Type} (l : List (PQEntry α P)) (i j : Nat) :
    (swapList l i j).length = l.length := by
  unfold swapList
  cases l.get? i <;> cases l.get? j <;> simp

/-- `bubbleUp`: swap the element at `idx` with its parent while the
parent's priority is not `<=` its own.  The fuel argument only makes the
recursion structural: each swap moves to the strictly smaller parent
index, so fuel `idx` always covers the loop. -/
def bubbleUpAux {α P : Type} (le : P → P → Bool) :
    Nat → List (PQEntry α P) → Nat → List (PQEntry α P)
  | _, l, 0 => l
  | 0, l, _ + 1 => l
  | fuel + 1, l, idx + 1 =>
    let parentIdx := (idx + 1 - 1) / 2
    match l.get? parentIdx, l.get? (idx + 1) with
    | some pe, some ie =>
      if le pe.priority ie.priority then l
      else bubbleUpAux le fuel (swapList l parentIdx (idx + 1)) parentIdx
    | _, _ => l

/-- `enqueue`: push `{val, priority}` then bubble up from the last index. -/
def enqueue {α P : Type} (le : P → P → Bool) (q : PriorityQueue α P) (val : α) (priority : P) :
    PriorityQueue α P :=
  let l := q.values ++ [⟨val, priority⟩]
  ⟨bubbleUpAux le (l.length - 1) l (l.length - 1)⟩

/-- The `swap` index computed by one `sinkDown` pass: the smaller child
when it improves on `idx`, translating the source's two `if`s. -/
def sinkSwapTarget {α P : Type} (lt : P → P → Bool) (l : List (PQEntry α P)) (idx : Nat) :
    Option Nat :=
  let length := l.length
  let leftI := 2 * idx + 1
  let rightI := 2 * idx + 2
  let cmpAt : Nat → Nat → Bool := fun i j =>
    match l.get? i, l.get? j with
    | some a, some b => lt a.priority b.priority
    | _, _ => false
  if leftI < length && cmpAt leftI idx then
    if rightI < length && cmpAt rightI leftI then some rightI else some leftI
  else
    if rightI < length && cmpAt rightI idx then some rightI else none

theorem sinkSwapTarget_bounds {α P : Type} {lt : P → P → Bool} {l : List (PQEntry α P)}
    {idx s : Nat} (h : sinkSwapTarget lt l idx = some s) : idx < s ∧ s < l.length := by
  unfold sinkSwapTarget at h
  simp only [Bool.and_eq_true, decide_eq_true_eq] at h
  split_ifs at h with h1 h2 h3 <;>
    simp only [Option.some.injEq] at h <;> omega

/-- `sinkDown`: swap downward with the smaller violating child.  The
fuel argument only makes the recursion structural: each swap moves to a
strictly larger in-range index, so fuel `l.length` always covers the
loop. -/
def sinkDownAux {α P : Type} (lt : P → P → Bool) :
    Nat → List (PQEntry α P) → Nat → List (PQEntry α P)
  | 0, l, _ => l
  | fuel + 1, l, idx =>
    match sinkSwapTarget lt l idx with
    | none => l
    | some s => sinkDownAux lt fuel (swapList l idx s) s

/-- `dequeue`: return `values[0]?.val` (so `undefined` on an empty queue),
move the popped last element to the root and sink it down. -/
def dequeue {α P : Type} (lt : P → P → Bool) (q : PriorityQueue α P) :
    Option α × PriorityQueue α P :=
  match q.values with
  | [] => (none, ⟨[]⟩)
  | [minE] => (some minE.val, ⟨[]⟩)
  | minE :: r1 :: rs =>
    (some minE.val,
      ⟨sinkDownAux lt (rs.length + 1)
        ((r1 :: rs).getLast (List.cons_ne_nil r1 rs) :: (r1 :: rs).dropLast) 0⟩)

/-- `isEmpty`. -/
def isEmpty {α P : Type} (q : PriorityQueue α P) : Bool :=
  q.values.isEmpty

/-- Linear membership test `contains`. -/
def contains {α P : Type} [DecidableEq α] (q : PriorityQueue α P) (val : α) : Bool :=
  q.values.any fun item => decide (item.val = val)

end PriorityQueue

/-- A JS number that is either an actual integer or `NaN`/`undefined`
(`none`); arithmetic propagates `none` and comparisons with `none` are
`false`, as in JS. -/
abbrev JsNum : Type := Option Int

/-- JS `+` on possibly-`NaN` numbers. -/
def jsAdd : JsNum → JsNum → JsNum
  | some a, some b => some (a + b)
  | _, _ => none

/-- JS `<` on possibly-`NaN` numbers. -/
def jsLtB : JsNum → JsNum → Bool
  | some a, some b => decide (a < b)
  | _, _ => false

/-- JS `<=` on possibly-`NaN` numbers. -/
def jsLeB : JsNum → JsNum → Bool
  | some a, some b => decide (a ≤ b)
  | _, _ => false

/-- Solver cell key; the JS template string
`"row,col"` is in bijection with the pair `(row, col)`. -/
abbrev Key : Type := Int × Int

/-- JS `Map.set` on an association list with distinct keys. -/
def mapSet {β : Type} (m : List (Key × β)) (k : Key) (v : β) : List (Key × β) :=
  (k, v) :: m.eraseP fun e => decide (e.1 = k)

/-- JS `Map.has`. -/
def mapHas {β : Type} (m : List (Key × β)) (k : Key) : Bool :=
  m.any fun e => decide (e.1 = k)

/-- JS `Map.get` (`undefined` when absent). -/
def mapGet {β : Type} (m : List (Key × β)) (k : Key) : Option β :=
  (m.find? fun e => decide (e.1 = k)).map fun e => e.2

/-- Maze-graph neighbors `MazeGrid.getValidNeighbors`: steps through
absent walls of the current cell, bounds-checked per direction. -/
def getValidNeighbors (g : Grid) (row col : Int) : List Key :=
  let walls := (g.maze row col).walls
  (if !walls.top && decide (row > 0) then [((row - 1, col) : Key)] else []) ++
    (if !walls.right && decide (col < g.cols - 1) then [((row, col + 1) : Key)] else []) ++
    (if !walls.bottom && decide (row < g.rows - 1) then [((row + 1, col) : Key)] else []) ++
    (if !walls.left && decide (col > 0) then [((row, col - 1) : Key)] else [])

/-- Heuristic `MazeGrid.heuristic`: Manhattan distance to `this.end`. -/
def heuristic (endP : Pos) (row col : Int) : Int :=
  getManhattanDistance row col endP.1 endP.2

/-- The solver maps and sets of `solveMaze`. -/
structure SolveState : Type where
  openSet : PriorityQueue Key JsNum
  closedSet : List Key
  cameFrom : List (Key × Key)
  gScore : List (Key × JsNum)
  fScore : List (Key × JsNum)

/-- Relaxation of one neighbor inside the `for` loop of `solveMaze`. -/
def relaxNeighbor (g : Grid) (endP : Pos) (currentKey : Key) (st : SolveState) (nb : Key) :
    SolveState :=
  if st.closedSet.any fun e => decide (e = nb) then st
  else
    let tentativeG := jsAdd ((mapGet st.gScore currentKey).join) (some 1)
    if !mapHas st.gScore nb || jsLtB tentativeG ((mapGet st.gScore nb).join) then
      let f := jsAdd tentativeG (some (heuristic endP nb.1 nb.2))
      { openSet :=
          if !st.openSet.contains nb then PriorityQueue.enqueue jsLeB st.openSet nb f
          else st.openSet
        closedSet := st.closedSet
        cameFrom := mapSet st.cameFrom nb currentKey
        gScore := mapSet st.gScore nb tentativeG
        fScore := mapSet st.fScore nb f }
    else st

/-- Path reconstruction `MazeGrid.reconstructPath` (rendering elided):
walk the predecessor map back from `currentKey`, prepending.  The fuel
only bounds the recursion; it is always called with fuel at least the
length of any acyclic predecessor chain. -/
def reconstructPath (cameFrom : List (Key × Key)) : Nat → Key → List Key
  | 0, currentKey => [currentKey]
  | fuel + 1, currentKey =>
    match mapGet cameFrom currentKey with
    | some prev => reconstructPath cameFrom fuel prev ++ [currentKey]
    | none => [currentKey]

/-- Main `while` loop of `solveMaze`.  The fuel is exactly the source's
iteration budget: the loop body runs while `iterations++ < maxIterations`,
so body run `i` (0-indexed) happens iff `i < maxIterations`.  Returns the
path-found flag, the final state and the number of dequeues performed.
The `(none, _)` dequeue arm is unreachable (the open set is non-empty)
and mirrors the JS crash-free fall-through value `undefined`. -/
def solveLoop (g : Grid) (endKey : Key) : Nat → SolveState → Bool × SolveState × Nat
  | 0, st => (false, st, 0)
  | fuel + 1, st =>
    if st.openSet.isEmpty then (false, st, 0)
    else
      match PriorityQueue.dequeue jsLtB st.openSet with
      | (none, open2) => (false, { st with openSet := open2 }, 1)
      | (some currentKey, open2) =>
        let st1 := { st with openSet := open2 }
        if currentKey = endKey then (true, st1, 1)
        else
          let st2 := { st1 with closedSet := currentKey :: st1.closedSet }
          let st3 := (getValidNeighbors g currentKey.1 currentKey.2).foldl
            (relaxNeighbor g endKey currentKey) st2
          let r := solveLoop g endKey fuel st3
          (r.1, r.2.1, r.2.2 + 1)

/-- A* search `MazeGrid.solveMaze`: the reentrancy guard on
`this.solving` (JS returns `undefined`, here `none`), initial open set
and score maps, the capped main loop, and path reconstruction on
success.  Returns the found flag, the number of dequeues and the
reconstructed path (`[]` when not found). -/
def solveMaze (g : Grid) (start endP : Pos) (solving : Bool) :
    Option (Bool × Nat × List Key) :=
  if solving then none
  else
    let startKey : Key := start
    let endKey : Key := endP
    let st0 : SolveState :=
      { openSet := PriorityQueue.enqueue jsLeB ⟨[]⟩ startKey (some 0)
        closedSet := []
        cameFrom := []
        gScore := mapSet [] startKey (some 0)
        fScore := mapSet [] startKey (some (heuristic endP start.1 start.2)) }
    let maxIterations := (g.rows * g.cols).toNat
    let r := solveLoop g endKey maxIterations st0
    let path :=
      if r.1 then reconstructPath r.2.1.cameFrom r.2.1.cameFrom.length endKey else []
    some (r.1, r.2.2, path)

/-! ### Derived notions and concrete instances used in the theorems -/

/-- Manhattan distance between two positions. -/
def mdist (s p : Pos) : Int :=
  getManhattanDistance s.1 s.2 p.1 p.2

/-- Concrete 1×1 grid whose single cell is carved with all walls absent,
as after a completed cycle. -/
def gridKeepStartW : Grid :=
  ⟨1, 1, fun _ _ => { visited := false, walls := ⟨false, false, false, false⟩, inMaze := true }⟩

/-- Concrete 25×25 all-walls grid. -/
def grid25 : Grid := ⟨25, 25, fun _ _ => blankCell⟩

/-- Concrete degenerate 1×1 all-walls grid. -/
def grid1 : Grid := ⟨1, 1, fun _ _ => blankCell⟩

/-- Concrete 3×3 all-walls grid. -/
def grid3 : Grid := ⟨3, 3, fun _ _ => blankCell⟩

/-- Adversarial random stream for `selectPoints`: every sampled pair is
`(0,0)`–`(0,1)`. -/
def cexOracle : Nat → Nat := fun k => if k % 4 = 3 then 1 else 0

/-- The valid cell rectangle as a finite set. -/
def cellFinset (g : Grid) : Finset Pos :=
  Finset.Icc 0 (g.rows - 1) ×ˢ Finset.Icc 0 (g.cols - 1)

/-- Number of interior walls that have been removed: a geometric wall
between two in-bounds neighbors is counted once (via its left/top cell)
and is removed when either of its two cell-side flags is cleared. -/
def removedCount (g : Grid) : Nat :=
  ((cellFinset g).filter fun p =>
    isValidCell g p.1 (p.2 + 1) = true ∧
      (!(g.maze p.1 p.2).walls.right || !(g.maze p.1 (p.2 + 1)).walls.left) = true).card +
  ((cellFinset g).filter fun p =>
    isValidCell g (p.1 + 1) p.2 = true ∧
      (!(g.maze p.1 p.2).walls.bottom || !(g.maze (p.1 + 1) p.2).walls.top) = true).card

/-- Wall-flag symmetry between every pair of in-bounds neighbors. -/
def wallSym (g : Grid) : Prop :=
  ∀ r c d, isValidCell g r c = true →
    isValidCell g (getCellInDirection r c d).1 (getCellInDirection r c d).2 = true →
    getWall (g.maze r c).walls d =
      getWall (g.maze (getCellInDirection r c d).1
        (getCellInDirection r c d).2).walls (opposite d)

/-- Wall-flag symmetry away from the preserved Start cell `s`, with only
the one-way implication for walls incident to `s`: if the neighbor's
flag toward `s` is cleared then `s`'s flag toward the neighbor is
cleared too (the converse can fail after a keep-start regeneration). -/
def wallSymKeep (g : Grid) (s : Pos) : Prop :=
  ∀ r c d, isValidCell g r c = true →
    isValidCell g (getCellInDirection r c d).1 (getCellInDirection r c d).2 = true →
    (((r, c) : Pos) ≠ s → getCellInDirection r c d ≠ s →
      getWall (g.maze r c).walls d =
        getWall (g.maze (getCellInDirection r c d).1
          (getCellInDirection r c d).2).walls (opposite d)) ∧
    (getCellInDirection r c d = s →
      getWall (g.maze r c).walls d = false →
      getWall (g.maze s.1 s.2).walls (opposite d) = false)

/-- Random stream driving the full-generation counterexample carve on
the 3×3 grid: pop indices 0, 3, 5, 6, then always 0. -/
def c1Oracle : Nat → Nat := fun k => [0, 3, 5, 6].getD k 0

/-- Random stream driving the keep-start counterexample carve on the
3×3 grid: pop indices 1, 3, 4, then always 0. -/
def c3Oracle : Nat → Nat := fun k => [1, 3, 4].getD k 0

/-- Concrete symmetric 3×3 pre-state for a keep-start regeneration: the
Start cell `(1,1)` was carved toward `(0,1)` (both flags of that wall are
absent), all other walls present. -/
def gC3pre : Grid :=
  ⟨3, 3, fun r c =>
    if r = 1 ∧ c = 1 then ⟨false, ⟨false, true, true, true⟩, true⟩
    else if r = 0 ∧ c = 1 then ⟨false, ⟨true, true, false, true⟩, false⟩
    else blankCell⟩

/-- The carved grid of the keep-start regeneration of `gC3pre` driven by
`c3Oracle`. -/
def c3Carved : Grid :=
  (carveLoop c3Oracle 40
    (markStartInMaze (resetMaze gC3pre true (some (1, 1))) true (some (1, 1)))
    (addWalls (markStartInMaze (resetMaze gC3pre true (some (1, 1))) true (some (1, 1)))
      1 1 []) 0).getD gC3pre

/-- The `selectPoints` accumulator after one `cexOracle` sample. -/
def bOne : SelBest := ⟨1, some 0, some 0, some 0, some 1⟩

/-- Numeric `<=` on heap priorities, as the source's JS comparison. -/
def prioLe {P : Type} [LinearOrder P] : P → P → Bool := fun a b => decide (a ≤ b)

/-- Numeric `<` on heap priorities. -/
def prioLt {P : Type} [LinearOrder P] : P → P → Bool := fun a b => decide (a < b)

/-- Heap-order constraint between positions `i` and `j` of the heap
array (vacuous when either is out of range). -/
def heapAt {α P : Type} [LinearOrder P] (l : List (PQEntry α P)) (i j : Nat) : Prop :=
  ∀ a b : PQEntry α P, l.get? i = some a → l.get? j = some b → a.priority ≤ b.priority

/-- The binary min-heap invariant of `this.values`: every non-root entry
is at least its parent. -/
def heapInv {α P : Type} [LinearOrder P] (l : List (PQEntry α P)) : Prop :=
  ∀ j, 0 < j → heapAt l ((j - 1) / 2) j

/-- Heap invariant possibly broken only on the edge from `idx`'s parent
to `idx`, with `idx`'s grandparent still dominating `idx`'s children:
the loop invariant of `bubbleUp`. -/
def heapExceptUp {α P : Type} [LinearOrder P] (l : List (PQEntry α P)) (idx : Nat) : Prop :=
  (∀ j, 0 < j → j ≠ idx → heapAt l ((j - 1) / 2) j) ∧
  (0 < idx → ∀ j, (j - 1) / 2 = idx → heapAt l ((idx - 1) / 2) j)

/-- Heap invariant possibly broken only on the edges from `idx` to its
children, with `idx`'s parent still dominating `idx`'s children: the
loop invariant of `sinkDown`. -/
def heapExceptDown {α P : Type} [LinearOrder P] (l : List (PQEntry α P)) (idx : Nat) : Prop :=
  (∀ j, 0 < j → (j - 1) / 2 ≠ idx → heapAt l ((j - 1) / 2) j) ∧
  (0 < idx → ∀ j, (j - 1) / 2 = idx → heapAt l ((idx - 1) / 2) j)

/-- Queue states reachable by sequences of `enqueue` and `dequeue`
operations from the freshly constructed empty queue. -/
inductive PQReachable {α P : Type} [LinearOrder P] : PriorityQueue α P → Prop where
  | empty : PQReachable ⟨[]⟩
  | enq : ∀ (q : PriorityQueue α P) (val : α) (priority : P), PQReachable q →
      PQReachable (PriorityQueue.enqueue prioLe q val priority)
  | deq : ∀ q : PriorityQueue α P, PQReachable q →
      PQReachable (PriorityQueue.dequeue prioLt q).2

/-- One side of the carved-corridor adjacency: `q` is one of the four
in-bounds neighbors of the in-bounds cell `p` and `p`'s wall flag toward
`q` is cleared, mirroring the tests of `getValidNeighbors`. -/
def carvedAdjB (g : Grid) (p q : Pos) : Bool :=
  isValidCell g p.1 p.2 && isValidCell g q.1 q.2 &&
    ((decide (q = ((p.1 - 1, p.2) : Pos)) && !(g.maze p.1 p.2).walls.top) ||
      (decide (q = ((p.1, p.2 + 1) : Pos)) && !(g.maze p.1 p.2).walls.right) ||
      (decide (q = ((p.1 + 1, p.2) : Pos)) && !(g.maze p.1 p.2).walls.bottom) ||
      (decide (q = ((p.1, p.2 - 1) : Pos)) && !(g.maze p.1 p.2).walls.left))

theorem carvedAdjB_ne {g : Grid} {p q : Pos} (h : carvedAdjB g p q = true) : p ≠ q := by
  simp only [carvedAdjB, Bool.and_eq_true, Bool.or_eq_true, decide_eq_true_eq] at h
  obtain ⟨-, h⟩ := h
  intro hc
  subst hc
  rcases h with ((⟨h, -⟩ | ⟨h, -⟩) | ⟨h, -⟩) | ⟨h, -⟩ <;>
    · rw [Prod.ext_iff] at h
      omega

/-- The carved corridor graph: two cells are adjacent when either side's
wall flag for the shared wall is cleared (on symmetric grids the two
sides agree). -/
def carvedGraph (g : Grid) : SimpleGraph Pos where
  Adj p q := (carvedAdjB g p q || carvedAdjB g q p) = true
  symm := by
    intro p q h
    rwa [Bool.or_comm]
  loopless := by
    intro p h
    rw [Bool.or_self] at h
    exact carvedAdjB_ne h rfl

/-- Keys currently stored in the solver's open set. -/
def openKeys (st : SolveState) : List Key :=
  st.openSet.values.map fun e => e.val

/-- Solver-map invariant tying the score and predecessor maps to the
carved graph's geodesic distances from Start: every stored g-score is
exact, the unique lower neighbor of every scored non-Start key is
scored, and predecessor entries step one level down.  (`d k` below means
`(carvedGraph g).dist start k`.) -/
structure ScoreInv (g : Grid) (start : Pos) (st : SolveState) : Prop where
  gval : ∀ k v, mapGet st.gScore k = some v →
    v = some ((carvedGraph g).dist start k : Int) ∧
      isValidCell g k.1 k.2 = true ∧ (carvedGraph g).Reachable start k
  gstart : mapHas st.gScore start = true
  parents : ∀ k, mapHas st.gScore k = true → k ≠ start →
    ∀ w, (carvedGraph g).Adj k w →
      (carvedGraph g).dist start w + 1 = (carvedGraph g).dist start k →
      mapHas st.gScore w = true
  came : ∀ k v, mapGet st.cameFrom k = some v → (carvedGraph g).Adj v k ∧
    (carvedGraph g).dist start k = (carvedGraph g).dist start v + 1 ∧
      mapHas st.gScore v = true
  cameHas : ∀ k, mapHas st.cameFrom k = true ↔ (mapHas st.gScore k = true ∧ k ≠ start)
  cameNodup : (st.cameFrom.map fun e => e.1).Nodup

/-- Solver open/closed bookkeeping invariant: the open set and closed
set partition the scored keys, keys on either side are distinct, and End
is never closed. -/
structure QueueInv (endP : Pos) (st : SolveState) : Prop where
  openSub : ∀ e ∈ st.openSet.values, mapHas st.gScore e.val = true
  closedSub : ∀ k ∈ st.closedSet, mapHas st.gScore k = true
  partition : ∀ k, mapHas st.gScore k = true →
    (k ∈ openKeys st ∧ ¬ k ∈ st.closedSet) ∨ (k ∈ st.closedSet ∧ ¬ k ∈ openKeys st)
  openNodup : (openKeys st).Nodup
  closedNodup : st.closedSet.Nodup
  endOpen : ¬ endP ∈ st.closedSet

/-- Every closed key has been fully expanded: all its carved-graph
neighbors carry a g-score.  (Holds between loop iterations; inside the
neighbor `for` loop it holds for all previously closed keys only.) -/
def ClosedExp (g : Grid) (st : SolveState) : Prop :=
  ∀ k ∈ st.closedSet, ∀ w, (carvedGraph g).Adj k w → mapHas st.gScore w = true

/-- Concrete fully carved 1×2 maze: a single corridor between `(0,0)`
and `(0,1)`. -/
def gW2 : Grid :=
  ⟨1, 2, fun r c =>
    if r = 0 ∧ c = 0 then ⟨false, ⟨true, false, true, true⟩, true⟩
    else if r = 0 ∧ c = 1 then ⟨false, ⟨true, true, true, false⟩, true⟩
    else blankCell⟩

/-! ### Phase exclusion (claim C8) -/

/-- C8: while solving is in progress (`this.isSolving` set by the
orchestrator around a solve), a generation request returns `false`
immediately and leaves the grid and the Start/End points untouched. -/
theorem generateMaze_rejected_while_solving (g : Grid) (start endP : Option Pos)
    (keepStart : Bool) (minDistance : Int) (seedOR seedOC : Nat) (carveO selO : Nat → Nat)
    (fuel : Nat) :
    generateMaze g start endP keepStart true minDistance seedOR seedOC carveO selO fuel =
      some ⟨false, g, start, endP⟩ := rfl

/-! ### Keep-start regeneration frame effect (claim C5) -/

theorem resetMaze_keepStart_other (g : Grid) (s : Pos) (r c : Int)
    (hv : isValidCell g r c = true) (hne : ¬(r = s.1 ∧ c = s.2)) :
    (resetMaze g true (some s)).maze r c = blankCell := by
  unfold resetMaze
  simp only [hv, Bool.not_true, Bool.false_or, true_and]
  have : (decide (r ≠ s.1) || decide (c ≠ s.2)) = true := by
    rcases Decidable.not_and_iff_or_not.mp hne with h | h <;> simp [h]
  simp only [this, Bool.or_true, Bool.and_true, hv, if_true]

theorem resetMaze_keepStart_start (g : Grid) (s : Pos) :
    (resetMaze g true (some s)).maze s.1 s.2 = g.maze s.1 s.2 := by
  unfold resetMaze
  simp

/-- C5: a keep-start regeneration on a state with a defined Start resets
every other in-bounds cell to the blank all-walls state, leaves Start's
cell (coordinates, `inMaze = true`, wall state) unchanged through the
reset phase, preserves Start in the returned state, and chooses the new
End by End-only reselection (`selectNewEndPoint`) on the carved grid. -/
theorem generateMaze_keepStart_frame (g : Grid) (start endP : Option Pos)
    (minDistance : Int) (seedOR seedOC : Nat) (carveO selO : Nat → Nat) (fuel : Nat)
    (res : GenResult) (s : Pos) (hs : start = some s)
    (hin : (g.maze s.1 s.2).inMaze = true)
    (hres : generateMaze g start endP true false minDistance seedOR seedOC carveO selO fuel =
      some res) :
    (∀ r c, isValidCell g r c = true → ¬(r = s.1 ∧ c = s.2) →
        (resetMaze g true start).maze r c = blankCell) ∧
      (markStartInMaze (resetMaze g true start) true start).maze s.1 s.2 = g.maze s.1 s.2 ∧
      res.returnValue = true ∧
      res.start = some s ∧
      res.endP = some (selectNewEndPoint res.grid s minDistance selO) := by
  subst hs
  refine ⟨fun r c hv hne => resetMaze_keepStart_other g s r c hv hne, ?_, ?_⟩
  · show (updateCell (resetMaze g true (some s)) s.1 s.2 fun cl =>
        { cl with inMaze := true }).maze s.1 s.2 = g.maze s.1 s.2
    unfold updateCell
    show (if s.1 = s.1 ∧ s.2 = s.2 then
        { (resetMaze g true (some s)).maze s.1 s.2 with inMaze := true }
      else (resetMaze g true (some s)).maze s.1 s.2) = g.maze s.1 s.2
    rw [if_pos ⟨rfl, rfl⟩, resetMaze_keepStart_start]
    cases h : g.maze s.1 s.2 with
    | mk visited walls inMaze =>
      rw [h] at hin
      simp_all
  · unfold generateMaze at hres
    rw [if_neg Bool.false_ne_true] at hres
    simp only [Bool.not_true] at hres
    split at hres
    · cases hres
    · simp only [Bool.false_eq_true, if_false, Option.some.injEq] at hres
      subst hres
      simp

/-- Witness for C5 at a concrete keep-start regeneration. -/
theorem generateMaze_keepStart_frame_witness :
    (markStartInMaze (resetMaze gridKeepStartW true (some ((0 : Int), (0 : Int)))) true
        (some (0, 0))).maze 0 0 = gridKeepStartW.maze 0 0 :=
  (generateMaze_keepStart_frame gridKeepStartW (some (0, 0)) none 0 0 0 (fun _ => 0)
      (fun _ => 0) 5
      ⟨true, markStartInMaze (resetMaze gridKeepStartW true (some (0, 0))) true (some (0, 0)),
        some (0, 0), some (0, 0)⟩
      (0, 0) rfl rfl rfl).2.1

/-! ### Start/End selection (claims C4 and C9) -/

theorem selectPointsLoop25_const (n : Nat) : ∀ k : Nat,
    selectPointsLoop grid25 cexOracle n k bOne = bOne := by
  induction n with
  | zero => intro k; rfl
  | succ n ih =>
    intro k
    have h0 : cexOracle (4 * k) = 0 := by unfold cexOracle; rw [if_neg (by omega)]
    have h1 : cexOracle (4 * k + 1) = 0 := by unfold cexOracle; rw [if_neg (by omega)]
    have h2 : cexOracle (4 * k + 2) = 0 := by unfold cexOracle; rw [if_neg (by omega)]
    have h3 : cexOracle (4 * k + 3) = 1 := by unfold cexOracle; rw [if_pos (by omega)]
    show selectPointsLoop grid25 cexOracle (n + 1) k bOne = bOne
    rw [selectPointsLoop, h0, h1, h2, h3]
    norm_num [grid25, randBelow, getManhattanDistance, bOne]
    exact ih (k + 1)

/-- C4, counterexample: an adversarial random stream makes full selection
(`selectPoints`) return the pair `(0,0)`–`(0,1)` on a 25×25 grid.  Its
Manhattan distance is 1, below any configured `minDistance` in the 10–25
range, and the corner fallback was not taken (the end is not a corner),
refuting the minimum-distance claim for `selectPoints`. -/
theorem selectPoints_below_minDistance :
    selectPoints grid25 cexOracle = (some (0, 0), some (0, 1)) ∧
      getManhattanDistance 0 0 0 1 = 1 ∧
      ¬((0, 1) ∈ cornerList grid25) := by
  refine ⟨?_, by decide, by decide⟩
  unfold selectPoints
  have hstep : selectPointsLoop grid25 cexOracle 1000 0 ⟨0, none, none, none, none⟩ = bOne := by
    have h0 : cexOracle 0 = 0 := by decide
    have h1 : cexOracle 1 = 0 := by decide
    have h2 : cexOracle 2 = 0 := by decide
    have h3 : cexOracle 3 = 1 := by decide
    show selectPointsLoop grid25 cexOracle (999 + 1) 0 ⟨0, none, none, none, none⟩ = bOne
    rw [selectPointsLoop]
    norm_num [grid25, randBelow, getManhattanDistance, cexOracle]
    exact selectPointsLoop25_const 999 1
  rw [hstep]
  norm_num [bOne]

theorem selectNewEndPointLoop_min (g : Grid) (s : Pos) (minDistance : Int)
    (oracle : Nat → Nat) : ∀ n k e,
    selectNewEndPointLoop g s minDistance oracle n k = some e →
    minDistance ≤ mdist s e := by
  intro n
  induction n with
  | zero => intro k e h; cases h
  | succ n ih =>
    intro k e h
    rw [selectNewEndPointLoop] at h
    split at h
    · rename_i hge
      cases h
      exact hge
    · exact ih (k + 1) e h

theorem foldl_farthest (s : Pos) (l : List Pos) : ∀ acc : Int × Pos,
    acc.1 ≤ mdist s acc.2 →
    let r := l.foldl
      (fun acc p =>
        let d := getManhattanDistance s.1 s.2 p.1 p.2
        if d > acc.1 then (d, p) else acc) acc
    (r.2 = acc.2 ∨ r.2 ∈ l) ∧ r.1 ≤ mdist s r.2 ∧ acc.1 ≤ r.1 ∧
      ∀ p ∈ l, mdist s p ≤ r.1 := by
  induction l with
  | nil => intro acc hacc; exact ⟨Or.inl rfl, hacc, le_refl _, by simp⟩
  | cons q t ih =>
    intro acc hacc
    simp only [List.foldl_cons]
    by_cases hq : getManhattanDistance s.1 s.2 q.1 q.2 > acc.1
    · rw [if_pos hq]
      have hacc2 : (getManhattanDistance s.1 s.2 q.1 q.2, q).1 ≤
          mdist s (getManhattanDistance s.1 s.2 q.1 q.2, q).2 := le_refl _
      obtain ⟨hmem, hle, hmono, hall⟩ := ih (getManhattanDistance s.1 s.2 q.1 q.2, q) hacc2
      refine ⟨?_, hle, le_trans (le_of_lt hq) hmono, ?_⟩
      · rcases hmem with h | h
        · exact Or.inr (by rw [h]; exact List.mem_cons_self q t)
        · exact Or.inr (List.mem_cons_of_mem q h)
      · intro p hp
        rcases List.mem_cons.mp hp with h | h
        · subst h; exact hmono
        · exact hall p h
    · rw [if_neg hq]
      obtain ⟨hmem, hle, hmono, hall⟩ := ih acc hacc
      refine ⟨?_, hle, hmono, ?_⟩
      · rcases hmem with h | h
        · exact Or.inl h
        · exact Or.inr (List.mem_cons_of_mem q h)
      · intro p hp
        rcases List.mem_cons.mp hp with h | h
        · subst h; exact le_trans (not_lt.mp hq) hmono
        · exact hall p h

theorem farthestCorner_spec (g : Grid) (s : Pos) :
    farthestCorner g s ∈ cornerList g ∧
      ∀ p ∈ cornerList g, mdist s p ≤ mdist s (farthestCorner g s) := by
  have h0 : ((0 : Int × Pos).1 : Int) ≤ mdist s ((0, ((0, 0) : Pos)) : Int × Pos).2 := by
    show (0 : Int) ≤ mdist s (0, 0)
    unfold mdist getManhattanDistance
    positivity
  obtain ⟨hmem, hle, _, hall⟩ := foldl_farthest s (cornerList g) (0, ((0, 0) : Pos)) h0
  constructor
  · unfold farthestCorner
    rcases hmem with h | h
    · rw [h]
      show ((0 : Int), (0 : Int)) ∈ cornerList g
      unfold cornerList
      exact List.mem_cons_self _ _
    · exact h
  · intro p hp
    exact le_trans (hall p hp) hle

/-- C4, amended: every End produced by End-only reselection
(`selectNewEndPoint`) lies at Manhattan distance at least `minDistance`
from Start, except in the corner-fallback case, where the chosen End is a
grid corner of maximal Manhattan distance among the four corners.  Full
selection (`selectPoints`) does not guarantee the minimum distance. -/
theorem selectNewEndPoint_minDistance_or_corner (g : Grid) (s : Pos) (minDistance : Int)
    (oracle : Nat → Nat) :
    minDistance ≤ mdist s (selectNewEndPoint g s minDistance oracle) ∨
      (selectNewEndPoint g s minDistance oracle ∈ cornerList g ∧
        ∀ p ∈ cornerList g,
          mdist s p ≤ mdist s (selectNewEndPoint g s minDistance oracle)) := by
  unfold selectNewEndPoint
  cases h : selectNewEndPointLoop g s minDistance oracle 100 0 with
  | some e => exact Or.inl (selectNewEndPointLoop_min g s minDistance oracle 100 0 e h)
  | none => exact Or.inr (farthestCorner_spec g s)

theorem selectPointsLoop1_const (oracle : Nat → Nat) (n : Nat) : ∀ (k : Nat) (b : SelBest),
    selectPointsLoop grid1 oracle n k b = b := by
  induction n with
  | zero => intro k b; rfl
  | succ n ih =>
    intro k b
    show selectPointsLoop grid1 oracle (n + 1) k b = b
    rw [selectPointsLoop]
    have hm : ∀ m : Nat, randBelow m (Int.toNat grid1.rows) = 0 := by
      intro m; unfold grid1 randBelow; simp [Nat.mod_one]
    have hm2 : ∀ m : Nat, randBelow m (Int.toNat grid1.cols) = 0 := by
      intro m; unfold grid1 randBelow; simp [Nat.mod_one]
    rw [hm, hm2, hm, hm2]
    norm_num
    exact ih (k + 1) b

/-- C9: on the degenerate 1×1 grid every sampled pair ties at distance 0,
and full selection then leaves Start `undefined` (the corner fallback
reads the never-assigned `bestStartRow`/`bestStartCol`), instead of the
claimed well-defined sampled Start paired with its farthest corner; End
falls back to corner `(0,0)`. -/
theorem selectPoints_degenerate_start_undefined (oracle : Nat → Nat) :
    selectPoints grid1 oracle = (none, some (0, 0)) := by
  unfold selectPoints
  rw [selectPointsLoop1_const oracle 1000 0 ⟨0, none, none, none, none⟩]
  norm_num [selectPointsFallbackEnd, cornerList, jsGtNum]

/-! ### Solver iteration cap and degenerate-pair behaviour (claims C6, C7) -/

theorem solveLoop_dequeues_le (g : Grid) (endKey : Key) : ∀ (fuel : Nat) (st : SolveState),
    (solveLoop g endKey fuel st).2.2 ≤ fuel := by
  intro fuel
  induction fuel with
  | zero => intro st; exact le_refl 0
  | succ fuel ih =>
    intro st
    rw [solveLoop]
    by_cases he : st.openSet.isEmpty
    · simp only [he, if_true]
      exact Nat.zero_le _
    · simp only [he, if_false, Bool.false_eq_true]
      cases hdq : PriorityQueue.dequeue jsLtB st.openSet with
      | mk fst snd =>
        cases fst with
        | none => simp
        | some currentKey =>
          by_cases hend : currentKey = endKey
          · simp [hend]
          · simp only [hend, if_false]
            have := ih ((getValidNeighbors g currentKey.1 currentKey.2).foldl
              (relaxNeighbor g endKey currentKey)
              { openSet := snd, closedSet := currentKey :: st.closedSet,
                cameFrom := st.cameFrom, gScore := st.gScore, fScore := st.fScore })
            omega

/-- C6: the solver always returns a normal value, performs at most
`rows*cols` dequeue iterations, and an exhausted iteration budget is
handled exactly like an exhausted open set: the loop result is the
not-found value `false`, not an error. -/
theorem solveMaze_cap_and_graceful (g : Grid) (start endP : Pos) :
    (solveMaze g start endP false).isSome = true ∧
      ((solveMaze g start endP false).getD (false, 0, [])).2.1 ≤ (g.rows * g.cols).toNat ∧
      (∀ st : SolveState, solveLoop g endP 0 st = (false, st, 0)) ∧
      ∀ (fuel : Nat) (closedSet : List Key) (cameFrom : List (Key × Key))
        (gScore fScore : List (Key × JsNum)),
        (solveLoop g endP fuel
            ⟨⟨[]⟩, closedSet, cameFrom, gScore, fScore⟩).1 = false := by
  refine ⟨?_, ?_, fun st => rfl, ?_⟩
  · unfold solveMaze
    rw [if_neg Bool.false_ne_true]
    rfl
  · unfold solveMaze
    rw [if_neg Bool.false_ne_true]
    simp only [Option.getD_some]
    exact solveLoop_dequeues_le g endP _ _
  · intro fuel closedSet cameFrom gScore fScore
    cases fuel with
    | zero => rfl
    | succ fuel => rfl

/-- C7: when Start equals End the solver succeeds immediately with the
single-cell path `[Start]` (one dequeue), for any grid with at least one
cell. -/
theorem solveMaze_start_eq_end (g : Grid) (s : Pos) (hpos : 0 < g.rows * g.cols) :
    solveMaze g s s false = some (true, 1, [s]) := by
  unfold solveMaze
  rw [if_neg Bool.false_ne_true]
  obtain ⟨m, hm⟩ : ∃ m, (g.rows * g.cols).toNat = m + 1 :=
    ⟨(g.rows * g.cols).toNat - 1, by omega⟩
  simp only [hm]
  rw [solveLoop]
  norm_num [PriorityQueue.enqueue, PriorityQueue.bubbleUpAux, PriorityQueue.isEmpty,
    PriorityQueue.dequeue, reconstructPath]

/-- Witness for C7 on the 3×3 grid with Start = End = `(1,1)`. -/
theorem solveMaze_start_eq_end_witness :
    solveMaze grid3 ((1 : Int), (1 : Int)) (1, 1) false = some (true, 1, [(1, 1)]) :=
  solveMaze_start_eq_end grid3 (1, 1) (by decide)

/-! ### Wall symmetry through generation (claim C3) -/

theorem opposite_opposite (d : Dir) : opposite (opposite d) = d := by
  cases d <;> rfl

theorem step_opposite (r c : Int) (d : Dir) :
    getCellInDirection (getCellInDirection r c d).1 (getCellInDirection r c d).2 (opposite d) =
      (r, c) := by
  cases d <;> simp [getCellInDirection, opposite] <;> ring

theorem step_ne (r c : Int) (d : Dir) : getCellInDirection r c d ≠ (r, c) := by
  cases d <;> simp [getCellInDirection] <;> omega

theorem setWall_getWall (w : Walls) (d e : Dir) (b : Bool) :
    getWall (setWall w d b) e = if e = d then b else getWall w e := by
  cases d <;> cases e <;> simp [setWall, getWall]

theorem isValidCell_updateCell (g : Grid) (row col : Int) (f : Cell → Cell) (a b : Int) :
    isValidCell (updateCell g row col f) a b = isValidCell g a b := rfl

theorem removeWall_invalid (g : Grid) (row col : Int) (d : Dir)
    (hv : ¬ isValidCell g row col = true) : removeWall g row col d = g := by
  unfold removeWall
  rw [if_neg hv]

theorem updateCell_maze (g : Grid) (row col : Int) (f : Cell → Cell) (a b : Int) :
    (updateCell g row col f).maze a b =
      if a = row ∧ b = col then f (g.maze a b) else g.maze a b := rfl

theorem removeWall_maze (g : Grid) (row col : Int) (dd : Dir)
    (hv : isValidCell g row col = true)
    (hv' : isValidCell g (getCellInDirection row col dd).1
      (getCellInDirection row col dd).2 = true) (a b : Int) :
    (removeWall g row col dd).maze a b =
      if a = (getCellInDirection row col dd).1 ∧ b = (getCellInDirection row col dd).2 then
        { g.maze a b with walls := setWall (g.maze a b).walls (opposite dd) false }
      else if a = row ∧ b = col then
        { g.maze a b with walls := setWall (g.maze a b).walls dd false }
      else g.maze a b := by
  unfold removeWall
  rw [if_pos hv]
  show (if isValidCell g (getCellInDirection row col dd).1
      (getCellInDirection row col dd).2 = true then _ else _ : Grid).maze a b = _
  rw [if_pos hv']
  rw [updateCell_maze, updateCell_maze]
  by_cases h2 : a = (getCellInDirection row col dd).1 ∧ b = (getCellInDirection row col dd).2
  · rw [if_pos h2, if_pos h2]
    have h1 : ¬(a = row ∧ b = col) := by
      intro hc
      apply step_ne row col dd
      rw [Prod.ext_iff]
      exact ⟨by rw [← h2.1, hc.1], by rw [← h2.2, hc.2]⟩
    rw [if_neg h1]
  · rw [if_neg h2, if_neg h2]

theorem removeWall_getWall (g : Grid) (row col : Int) (dd : Dir)
    (hv : isValidCell g row col = true)
    (hv' : isValidCell g (getCellInDirection row col dd).1
      (getCellInDirection row col dd).2 = true) (p : Pos) (e : Dir) :
    getWall ((removeWall g row col dd).maze p.1 p.2).walls e =
      if (p = ((row, col) : Pos) ∧ e = dd) ∨
          (p = getCellInDirection row col dd ∧ e = opposite dd) then false
      else getWall (g.maze p.1 p.2).walls e := by
  have hne : getCellInDirection row col dd ≠ ((row, col) : Pos) := step_ne row col dd
  rw [removeWall_maze g row col dd hv hv']
  by_cases hp2 : p = getCellInDirection row col dd
  · rw [if_pos ⟨congrArg Prod.fst hp2, congrArg Prod.snd hp2⟩]
    dsimp only
    rw [setWall_getWall]
    by_cases he : e = opposite dd
    · rw [if_pos he, if_pos (Or.inr ⟨hp2, he⟩)]
    · rw [if_neg he, if_neg ?hc]
      case hc =>
        rintro (⟨ha, _⟩ | ⟨_, hb⟩)
        · exact hne (by rw [← hp2, ha])
        · exact he hb
  · have h2 : ¬(p.1 = (getCellInDirection row col dd).1 ∧
        p.2 = (getCellInDirection row col dd).2) := by
      intro hc
      exact hp2 (Prod.ext_iff.mpr hc)
    rw [if_neg h2]
    by_cases hp1 : p = ((row, col) : Pos)
    · rw [if_pos ⟨congrArg Prod.fst hp1, congrArg Prod.snd hp1⟩]
      dsimp only
      rw [setWall_getWall]
      by_cases he : e = dd
      · rw [if_pos he, if_pos (Or.inl ⟨hp1, he⟩)]
      · rw [if_neg he, if_neg ?hc2]
        case hc2 =>
          rintro (⟨_, hb⟩ | ⟨ha, _⟩)
          · exact he hb
          · exact hp2 ha
    · have h1 : ¬(p.1 = row ∧ p.2 = col) := by
        intro hc
        exact hp1 (Prod.ext_iff.mpr hc)
      rw [if_neg h1, if_neg ?hc3]
      case hc3 =>
        rintro (⟨ha, _⟩ | ⟨ha, _⟩)
        · exact hp1 ha
        · exact hp2 ha

theorem isValidCell_removeWall (g : Grid) (row col : Int) (d : Dir) (a b : Int) :
    isValidCell (removeWall g row col d) a b = isValidCell g a b := by
  simp only [removeWall]
  split
  · split <;> rfl
  · rfl

theorem updateCell_walls (g : Grid) (row col : Int) (f : Cell → Cell)
    (hf : ∀ cl, (f cl).walls = cl.walls) (a b : Int) :
    ((updateCell g row col f).maze a b).walls = (g.maze a b).walls := by
  unfold updateCell
  dsimp only
  split
  · rw [hf]
  · rfl

theorem wallSym_removeWall (g : Grid) (row col : Int) (dd : Dir)
    (hv' : isValidCell g (getCellInDirection row col dd).1
      (getCellInDirection row col dd).2 = true)
    (h : wallSym g) : wallSym (removeWall g row col dd) := by
  by_cases hv : isValidCell g row col = true
  · intro r c d h1 h2
    rw [isValidCell_removeWall] at h1 h2
    have hq := step_opposite r c d
    rw [removeWall_getWall g row col dd hv hv' (r, c) d,
      removeWall_getWall g row col dd hv hv' (getCellInDirection r c d) (opposite d)]
    by_cases c1 : ((r, c) : Pos) = ((row, col) : Pos) ∧ d = dd
    · rw [if_pos (Or.inl c1)]
      have : getCellInDirection r c d = getCellInDirection row col dd := by
        rw [c1.2, show r = row from congrArg Prod.fst c1.1,
          show c = col from congrArg Prod.snd c1.1]
      rw [if_pos (Or.inr ⟨this, by rw [c1.2]⟩)]
    · by_cases c2 : ((r, c) : Pos) = getCellInDirection row col dd ∧ d = opposite dd
      · rw [if_pos (Or.inr c2)]
        have hgq : getCellInDirection r c d = ((row, col) : Pos) := by
          have := step_opposite row col dd
          rw [show r = (getCellInDirection row col dd).1 from congrArg Prod.fst c2.1,
            show c = (getCellInDirection row col dd).2 from congrArg Prod.snd c2.1, c2.2]
          exact this
        rw [if_pos (Or.inl ⟨hgq, by rw [c2.2, opposite_opposite]⟩)]
      · rw [if_neg (by tauto)]
        have c3 : ¬((getCellInDirection r c d = ((row, col) : Pos) ∧ opposite d = dd) ∨
            (getCellInDirection r c d = getCellInDirection row col dd ∧
              opposite d = opposite dd)) := by
          rintro (⟨ha, hb⟩ | ⟨ha, hb⟩)
          · refine c2 ⟨?_, ?_⟩
            · have ha1 : row = (getCellInDirection r c d).1 := (congrArg Prod.fst ha).symm
              have ha2 : col = (getCellInDirection r c d).2 := (congrArg Prod.snd ha).symm
              rw [← hb, ha1, ha2, step_opposite]
            · rw [← hb, opposite_opposite]
          · have hd : d = dd := by
              have := congrArg opposite hb
              rwa [opposite_opposite, opposite_opposite] at this
            refine c1 ⟨?_, hd⟩
            rw [hd] at ha
            have := congrArg (fun q : Pos =>
              getCellInDirection q.1 q.2 (opposite dd)) ha
            dsimp at this
            rwa [step_opposite, step_opposite] at this
        rw [if_neg c3]
        exact h r c d h1 h2
  · rw [removeWall_invalid g row col dd hv]
    exact h

theorem wallSymKeep_removeWall (g : Grid) (s : Pos) (row col : Int) (dd : Dir)
    (hv' : isValidCell g (getCellInDirection row col dd).1
      (getCellInDirection row col dd).2 = true)
    (h : wallSymKeep g s) : wallSymKeep (removeWall g row col dd) s := by
  by_cases hv : isValidCell g row col = true
  · intro r c d h1 h2
    rw [isValidCell_removeWall] at h1 h2
    constructor
    · intro hrs hqs
      rw [removeWall_getWall g row col dd hv hv' (r, c) d,
        removeWall_getWall g row col dd hv hv' (getCellInDirection r c d) (opposite d)]
      by_cases c1 : ((r, c) : Pos) = ((row, col) : Pos) ∧ d = dd
      · rw [if_pos (Or.inl c1)]
        have : getCellInDirection r c d = getCellInDirection row col dd := by
          rw [c1.2, show r = row from congrArg Prod.fst c1.1,
            show c = col from congrArg Prod.snd c1.1]
        rw [if_pos (Or.inr ⟨this, by rw [c1.2]⟩)]
      · by_cases c2 : ((r, c) : Pos) = getCellInDirection row col dd ∧ d = opposite dd
        · rw [if_pos (Or.inr c2)]
          have hgq : getCellInDirection r c d = ((row, col) : Pos) := by
            have := step_opposite row col dd
            rw [show r = (getCellInDirection row col dd).1 from congrArg Prod.fst c2.1,
              show c = (getCellInDirection row col dd).2 from congrArg Prod.snd c2.1, c2.2]
            exact this
          rw [if_pos (Or.inl ⟨hgq, by rw [c2.2, opposite_opposite]⟩)]
        · rw [if_neg (by tauto)]
          have c3 : ¬((getCellInDirection r c d = ((row, col) : Pos) ∧ opposite d = dd) ∨
              (getCellInDirection r c d = getCellInDirection row col dd ∧
                opposite d = opposite dd)) := by
            rintro (⟨ha, hb⟩ | ⟨ha, hb⟩)
            · refine c2 ⟨?_, ?_⟩
              · have ha1 : row = (getCellInDirection r c d).1 := (congrArg Prod.fst ha).symm
                have ha2 : col = (getCellInDirection r c d).2 := (congrArg Prod.snd ha).symm
                rw [← hb, ha1, ha2, step_opposite]
              · rw [← hb, opposite_opposite]
            · have hd : d = dd := by
                have := congrArg opposite hb
                rwa [opposite_opposite, opposite_opposite] at this
              refine c1 ⟨?_, hd⟩
              rw [hd] at ha
              have := congrArg (fun q : Pos =>
                getCellInDirection q.1 q.2 (opposite dd)) ha
              dsimp at this
              rwa [step_opposite, step_opposite] at this
          rw [if_neg c3]
          exact ((h r c d h1 h2).1) hrs hqs
    · intro hqs hfalse
      rw [removeWall_getWall g row col dd hv hv' (s.1, s.2) (opposite d)]
      by_cases cs : (((s.1, s.2) : Pos) = ((row, col) : Pos) ∧ opposite d = dd) ∨
          (((s.1, s.2) : Pos) = getCellInDirection row col dd ∧ opposite d = opposite dd)
      · rw [if_pos cs]
      · rw [if_neg cs]
        rw [removeWall_getWall g row col dd hv hv' (r, c) d] at hfalse
        by_cases cr : (((r, c) : Pos) = ((row, col) : Pos) ∧ d = dd) ∨
            (((r, c) : Pos) = getCellInDirection row col dd ∧ d = opposite dd)
        · exfalso
          apply cs
          rcases cr with ⟨ha, hb⟩ | ⟨ha, hb⟩
          · right
            constructor
            · rw [← hqs, show row = r from (congrArg Prod.fst ha).symm,
                show col = c from (congrArg Prod.snd ha).symm, hb]
            · rw [hb]
          · left
            constructor
            · show s = ((row, col) : Pos)
              rw [← hqs, show r = (getCellInDirection row col dd).1 from congrArg Prod.fst ha,
                show c = (getCellInDirection row col dd).2 from congrArg Prod.snd ha, hb,
                step_opposite]
            · rw [hb, opposite_opposite]
        · rw [if_neg cr] at hfalse
          exact ((h r c d h1 h2).2) hqs hfalse
  · rw [removeWall_invalid g row col dd hv]
    exact h

theorem wallSym_updateCell_inMaze (g : Grid) (row col : Int) (h : wallSym g) :
    wallSym (updateCell g row col fun cl => { cl with inMaze := true }) := by
  intro r c d h1 h2
  rw [isValidCell_updateCell] at h1 h2
  rw [updateCell_walls g row col (fun cl => { cl with inMaze := true }) (fun _ => rfl),
    updateCell_walls g row col (fun cl => { cl with inMaze := true }) (fun _ => rfl)]
  exact h r c d h1 h2

theorem wallSymKeep_updateCell_inMaze (g : Grid) (s : Pos) (row col : Int)
    (h : wallSymKeep g s) :
    wallSymKeep (updateCell g row col fun cl => { cl with inMaze := true }) s := by
  intro r c d h1 h2
  rw [isValidCell_updateCell] at h1 h2
  constructor
  · intro hrs hqs
    rw [updateCell_walls g row col (fun cl => { cl with inMaze := true }) (fun _ => rfl),
      updateCell_walls g row col (fun cl => { cl with inMaze := true }) (fun _ => rfl)]
    exact (h r c d h1 h2).1 hrs hqs
  · intro hqs hfalse
    rw [updateCell_walls g row col (fun cl => { cl with inMaze := true })
      (fun _ => rfl)] at hfalse ⊢
    exact (h r c d h1 h2).2 hqs hfalse

/-- Predicate preservation through the carving loop: any grid property
preserved by valid-target wall removal and by in-maze marking is an
invariant of `carveLoop`. -/
theorem carveLoop_preserves (Q : Grid → Prop)
    (hQrm : ∀ g row col d, isValidCell g (getCellInDirection row col d).1
      (getCellInDirection row col d).2 = true → Q g → Q (removeWall g row col d))
    (hQin : ∀ g row col, Q g →
      Q (updateCell g row col fun cl => { cl with inMaze := true }))
    (oracle : Nat → Nat) : ∀ (fuel : Nat) (g : Grid) (walls : List Wall) (k : Nat) (g' : Grid),
    Q g → carveLoop oracle fuel g walls k = some g' → Q g' := by
  intro fuel
  induction fuel with
  | zero =>
    intro g walls k g' hQ hrun
    cases walls with
    | nil => cases hrun; exact hQ
    | cons a l => cases hrun
  | succ fuel ih =>
    intro g walls k g' hQ hrun
    cases walls with
    | nil => cases hrun; exact hQ
    | cons wl rest0 =>
      rw [carveLoop] at hrun
      dsimp only at hrun
      split at hrun
      · rename_i hguard
        exact ih _ _ _ _ (hQin _ _ _ (hQrm _ _ _ _
          ((Bool.and_eq_true _ _).mp hguard).1 hQ)) hrun
      · exact ih _ _ _ _ hQ hrun

theorem wallSym_reset_full (g : Grid) (start : Option Pos) :
    wallSym (resetMaze g false start) := by
  intro r c d h1 h2
  have hrc : isValidCell g r c = true := h1
  have hq : isValidCell g (getCellInDirection r c d).1 (getCellInDirection r c d).2 = true := h2
  show getWall ((resetMaze g false start).maze r c).walls d = _
  unfold resetMaze
  dsimp only
  rw [if_pos (by simp [hrc]), if_pos (by simp [hq])]
  cases d <;> rfl

theorem wallSymKeep_reset (g : Grid) (s : Pos) :
    wallSymKeep (markStartInMaze (resetMaze g true (some s)) true (some s)) s := by
  intro r c d h1 h2
  rw [show markStartInMaze (resetMaze g true (some s)) true (some s) =
      updateCell (resetMaze g true (some s)) s.1 s.2 (fun cl => { cl with inMaze := true })
    from rfl] at h1 h2 ⊢
  rw [isValidCell_updateCell] at h1 h2
  have hblank : ∀ a b : Int, isValidCell g a b = true → ¬(a = s.1 ∧ b = s.2) →
      (resetMaze g true (some s)).maze a b = blankCell := fun a b hv hne =>
    resetMaze_keepStart_other g s a b hv hne
  constructor
  · intro hrs hqs
    rw [updateCell_walls _ _ _ (fun cl => { cl with inMaze := true }) (fun _ => rfl),
      updateCell_walls _ _ _ (fun cl => { cl with inMaze := true }) (fun _ => rfl)]
    rw [hblank r c h1 (fun hc => hrs (Prod.ext_iff.mpr hc)),
      hblank (getCellInDirection r c d).1 (getCellInDirection r c d).2 h2
        (fun hc => hqs (Prod.ext_iff.mpr hc))]
    cases d <;> rfl
  · intro hqs hfalse
    exfalso
    rw [updateCell_walls _ _ _ (fun cl => { cl with inMaze := true }) (fun _ => rfl)] at hfalse
    have hrs : ¬(r = s.1 ∧ c = s.2) := by
      intro hc
      have : ((r, c) : Pos) = s := Prod.ext_iff.mpr hc
      rw [← this] at hqs
      exact step_ne r c d hqs
    rw [hblank r c h1 hrs] at hfalse
    cases d <;> simp [blankCell, getWall] at hfalse

/-- C3, counterexample: starting from a symmetric 3×3 state whose Start
`(1,1)` had its top wall carved away, one keep-start regeneration run
(the neighbor `(0,1)` gets carved from the east, so the stale frontier
entry toward it is discarded) ends with `(1,1)`'s top flag absent but
`(0,1)`'s bottom flag present: wall symmetry fails after a partial
regeneration. -/
theorem generateMaze_keepStart_asymmetric :
    ((generateMaze gC3pre (some (1, 1)) none true false 0 0 0 c3Oracle (fun _ => 0) 40).map
      fun res => ((res.grid.maze 1 1).walls.top, (res.grid.maze 0 1).walls.bottom)) =
      some (false, true) ∧
      (gC3pre.maze 1 1).walls.top = (gC3pre.maze 0 1).walls.bottom := by decide

/-- C3, amended: after every full generation, wall state between
adjacent in-bounds cells is symmetric; after a keep-start (partial)
regeneration, symmetry holds for every adjacent pair not involving
Start, while for walls incident to Start only the one-way implication
holds (the neighbor's flag absent implies Start's flag absent) — Start's
preserved pre-regeneration wall flags can remain cleared without the
matching neighbor flag. -/
theorem generateMaze_wall_symmetry (g : Grid) (start endP : Option Pos) (minDistance : Int)
    (seedOR seedOC : Nat) (carveO selO : Nat → Nat) (fuel : Nat) :
    (∀ res : GenResult,
      generateMaze g start endP false false minDistance seedOR seedOC carveO selO fuel =
        some res → wallSym res.grid) ∧
    ∀ (res : GenResult) (s : Pos), start = some s →
      generateMaze g start endP true false minDistance seedOR seedOC carveO selO fuel =
        some res → wallSymKeep res.grid s := by
  constructor
  · intro res hres
    unfold generateMaze at hres
    rw [if_neg Bool.false_ne_true] at hres
    simp only [Bool.not_false, if_true] at hres
    split at hres
    · cases hres
    · rename_i g3 hcv
      simp only [Option.some.injEq] at hres
      rw [← hres]
      exact carveLoop_preserves wallSym
        (fun g row col d hv' hQ => wallSym_removeWall g row col d hv' hQ)
        (fun g row col hQ => wallSym_updateCell_inMaze g row col hQ)
        carveO fuel _ _ 0 g3 (wallSym_reset_full g start) hcv
  · intro res s hs hres
    subst hs
    unfold generateMaze at hres
    rw [if_neg Bool.false_ne_true] at hres
    simp only [Bool.not_true, Bool.false_eq_true, if_false] at hres
    split at hres
    · cases hres
    · rename_i g3 hcv
      simp only [Option.some.injEq] at hres
      rw [← hres]
      exact carveLoop_preserves (fun gr => wallSymKeep gr s)
        (fun g row col d hv' hQ => wallSymKeep_removeWall g s row col d hv' hQ)
        (fun g row col hQ => wallSymKeep_updateCell_inMaze g s row col hQ)
        carveO fuel _ _ 0 g3 (wallSymKeep_reset g s) hcv

/-- Witness for C3 (amended) on the concrete keep-start run of `gC3pre`:
the carved wall between the two non-Start cells `(0,0)` and `(0,1)` is
symmetric. -/
theorem generateMaze_wall_symmetry_witness :
    getWall (c3Carved.maze 0 0).walls Dir.right = getWall (c3Carved.maze 0 1).walls Dir.left :=
  (((generateMaze_wall_symmetry gC3pre (some (1, 1)) none 0 0 0 c3Oracle (fun _ => 0) 40).2
      ⟨true, c3Carved, some (1, 1), some (selectNewEndPoint c3Carved (1, 1) 0 (fun _ => 0))⟩
      (1, 1) rfl rfl) 0 0 Dir.right (by decide) (by decide)).1 (by decide) (by decide)

/-! ### Full generation is not a perfect maze (claim C1) -/

/-- C1: the full-generation path never marks the seed cell `inMaze`
(only the keep-start branch does), so frontier entries pushed back
toward the seed can carve a second connection into it.  With the
`c1Oracle` random stream on the 3×3 grid, generation terminates with
every one of the 9 cells carved but 9 removed walls instead of
`rows*cols - 1 = 8`: the carved graph contains a cycle and is not a
perfect maze. -/
theorem generateMaze_full_not_perfect :
    ((generateMaze grid3 none none false false 10 0 0 c1Oracle (fun _ => 0) 40).map
      fun res => removedCount res.grid) = some 9 ∧
      ((generateMaze grid3 none none false false 10 0 0 c1Oracle (fun _ => 0) 40).map
        fun res =>
          ((cellFinset res.grid).filter fun p => (res.grid.maze p.1 p.2).inMaze = true).card) =
        some 9 ∧
      grid3.rows * grid3.cols - 1 = 8 := by
  refine ⟨by decide, by decide, by decide⟩

/-! ### Multiset behaviour of the PriorityQueue operations -/

namespace PriorityQueue

theorem cons_set_perm {γ : Type} : ∀ (t : List γ) (j : Nat) (b c : γ),
    t.get? j = some b → (c :: t).Perm (b :: t.set j c) := by
  intro t
  induction t with
  | nil => intro j b c h; cases h
  | cons d t' ih =>
    intro j b c h
    cases j with
    | zero =>
      cases h
      exact List.Perm.swap _ _ _
    | succ j =>
      rw [List.get?_cons_succ] at h
      show (c :: d :: t').Perm (b :: d :: t'.set j c)
      refine List.Perm.trans (List.Perm.swap d c t') ?_
      exact List.Perm.trans (List.Perm.cons d (ih j b c h)) (List.Perm.swap b d _)

theorem swapList_perm {α P : Type} : ∀ (l : List (PQEntry α P)) (i j : Nat),
    (swapList l i j).Perm l := by
  intro l
  induction l with
  | nil =>
    intro i j
    unfold swapList
    simp
  | cons c t ih =>
    intro i j
    unfold swapList
    cases i with
    | zero =>
      cases j with
      | zero =>
        simp only [List.get?_cons_zero]
        exact List.Perm.refl _
      | succ j =>
        simp only [List.get?_cons_zero, List.get?_cons_succ]
        cases hj : t.get? j with
        | none => exact List.Perm.refl _
        | some b =>
          show (b :: t.set j c).Perm (c :: t)
          exact (cons_set_perm t j b c hj).symm
    | succ i =>
      cases j with
      | zero =>
        simp only [List.get?_cons_zero, List.get?_cons_succ]
        cases hi : t.get? i with
        | none => exact List.Perm.refl _
        | some a =>
          show (a :: t.set i c).Perm (c :: t)
          exact (cons_set_perm t i a c hi).symm
      | succ j =>
        simp only [List.get?_cons_succ]
        cases hi : t.get? i with
        | none => exact List.Perm.refl _
        | some a =>
          cases hj : t.get? j with
          | none => exact List.Perm.refl _
          | some b =>
            show (c :: (t.set i b).set j a).Perm (c :: t)
            refine List.Perm.cons c ?_
            have := ih i j
            unfold swapList at this
            rwa [hi, hj] at this

theorem sinkDownAux_perm {α P : Type} (lt : P → P → Bool) :
    ∀ (fuel : Nat) (l : List (PQEntry α P)) (idx : Nat),
      (sinkDownAux lt fuel l idx).Perm l := by
  intro fuel
  induction fuel with
  | zero => intro l idx; exact List.Perm.refl _
  | succ fuel ih =>
    intro l idx
    simp only [sinkDownAux]
    cases hsw : sinkSwapTarget lt l idx with
    | none => exact List.Perm.refl _
    | some s => exact (ih _ s).trans (swapList_perm l idx s)

theorem bubbleUpAux_perm {α P : Type} (le : P → P → Bool) :
    ∀ (fuel : Nat) (l : List (PQEntry α P)) (idx : Nat),
      (bubbleUpAux le fuel l idx).Perm l := by
  intro fuel
  induction fuel with
  | zero =>
    intro l idx
    cases idx <;> exact List.Perm.refl _
  | succ fuel ih =>
    intro l idx
    cases idx with
    | zero => exact List.Perm.refl _
    | succ idx =>
      simp only [bubbleUpAux]
      cases hp : l.get? ((idx + 1 - 1) / 2) with
      | none => exact List.Perm.refl _
      | some pe =>
        cases hi : l.get? (idx + 1) with
        | none => exact List.Perm.refl _
        | some ie =>
          show (if le pe.priority ie.priority = true then l
              else bubbleUpAux le fuel (swapList l ((idx + 1 - 1) / 2) (idx + 1))
                ((idx + 1 - 1) / 2)).Perm l
          by_cases hcmp : le pe.priority ie.priority = true
          · rw [if_pos hcmp]
          · rw [if_neg hcmp]
            exact (ih _ _).trans (swapList_perm l _ _)

theorem enqueue_perm {α P : Type} (le : P → P → Bool) (q : PriorityQueue α P) (v : α) (p : P) :
    (enqueue le q v p).values.Perm (q.values ++ [⟨v, p⟩]) := by
  unfold enqueue
  exact bubbleUpAux_perm le _ _ _

theorem dequeue_fst {α P : Type} (lt : P → P → Bool) (q : PriorityQueue α P)
    (e : PQEntry α P) (rest : List (PQEntry α P)) (h : q.values = e :: rest) :
    (dequeue lt q).1 = some e.val := by
  obtain ⟨vals⟩ := q
  cases h
  cases rest <;> rfl

theorem dequeue_perm {α P : Type} (lt : P → P → Bool) (q : PriorityQueue α P)
    (e : PQEntry α P) (rest : List (PQEntry α P)) (h : q.values = e :: rest) :
    (dequeue lt q).2.values.Perm rest := by
  obtain ⟨vals⟩ := q
  cases h
  cases rest with
  | nil => exact List.Perm.refl _
  | cons r1 rs =>
    show (sinkDownAux lt (rs.length + 1)
      ((r1 :: rs).getLast (List.cons_ne_nil r1 rs) :: (r1 :: rs).dropLast) 0).Perm (r1 :: rs)
    refine (sinkDownAux_perm lt _ _ 0).trans ?_
    have hdl : (r1 :: rs).dropLast ++ [(r1 :: rs).getLast (List.cons_ne_nil r1 rs)] =
        r1 :: rs := List.dropLast_append_getLast (List.cons_ne_nil r1 rs)
    have hstep : ([(r1 :: rs).getLast (List.cons_ne_nil r1 rs)] ++ (r1 :: rs).dropLast).Perm
        ((r1 :: rs).dropLast ++ [(r1 :: rs).getLast (List.cons_ne_nil r1 rs)]) :=
      List.perm_append_comm
    rw [hdl] at hstep
    exact hstep

theorem contains_iff {α P : Type} [DecidableEq α] (q : PriorityQueue α P) (v : α) :
    contains q v = true ↔ ∃ e ∈ q.values, e.val = v := by
  unfold contains
  rw [List.any_eq_true]
  constructor
  · rintro ⟨e, he, hev⟩
    exact ⟨e, he, of_decide_eq_true hev⟩
  · rintro ⟨e, he, hev⟩
    exact ⟨e, he, decide_eq_true hev⟩

end PriorityQueue

/-! ### JS Map model lemmas -/

theorem mapGet_some_iff {β : Type} (m : List (Key × β)) (k : Key) (v : β) :
    mapGet m k = some v ↔ (m.find? fun e => decide (e.1 = k)) = some (k, v) := by
  unfold mapGet
  cases hf : m.find? fun e => decide (e.1 = k) with
  | none => simp
  | some e =>
    obtain ⟨k0, v0⟩ := e
    have hk0 := List.find?_some hf
    have hk : k0 = k := by simpa using hk0
    subst hk
    simp

theorem mapHas_iff_get {β : Type} (m : List (Key × β)) (k : Key) :
    mapHas m k = true ↔ ∃ v, mapGet m k = some v := by
  have h1 : mapHas m k = true ↔ (m.find? fun e => decide (e.1 = k)).isSome = true := by
    unfold mapHas
    rw [List.any_eq_true, List.find?_isSome]
  rw [h1]
  unfold mapGet
  cases m.find? fun e => decide (e.1 = k) with
  | none => simp
  | some e => simp

theorem mapGet_mapSet_self {β : Type} (m : List (Key × β)) (k : Key) (v : β) :
    mapGet (mapSet m k v) k = some v := by
  unfold mapGet mapSet
  rw [List.find?_cons_of_pos _ (by simp)]
  rfl

theorem eraseP_find?_ne {β : Type} (m : List (Key × β)) (k k' : Key) (h : k' ≠ k) :
    ((m.eraseP fun e => decide (e.1 = k)).find? fun e => decide (e.1 = k')) =
      m.find? fun e => decide (e.1 = k') := by
  induction m with
  | nil => rfl
  | cons e t ih =>
    by_cases hek : e.1 = k
    · rw [List.eraseP_cons_of_pos (by simp [hek])]
      rw [List.find?_cons_of_neg _ (by simp only [hek, decide_eq_true_eq]; exact fun hc => h hc.symm)]
    · rw [List.eraseP_cons_of_neg (by simp [hek])]
      by_cases hek' : e.1 = k'
      · rw [List.find?_cons_of_pos _ (by simp [hek']), List.find?_cons_of_pos _ (by simp [hek'])]
      · rw [List.find?_cons_of_neg _ (by simp [hek']), List.find?_cons_of_neg _ (by simp [hek'])]
        exact ih

theorem mapGet_mapSet_ne {β : Type} (m : List (Key × β)) (k k' : Key) (v : β) (h : k' ≠ k) :
    mapGet (mapSet m k v) k' = mapGet m k' := by
  unfold mapGet mapSet
  rw [List.find?_cons_of_neg _ (by simp [h.symm])]
  rw [eraseP_find?_ne m k k' h]

theorem mapHas_mapSet_self {β : Type} (m : List (Key × β)) (k : Key) (v : β) :
    mapHas (mapSet m k v) k = true :=
  (mapHas_iff_get _ _).mpr ⟨v, mapGet_mapSet_self m k v⟩

theorem mapHas_mapSet_ne {β : Type} (m : List (Key × β)) (k k' : Key) (v : β) (h : k' ≠ k) :
    mapHas (mapSet m k v) k' = mapHas m k' := by
  by_cases hh : mapHas m k' = true
  · rw [hh]
    obtain ⟨w, hw⟩ := (mapHas_iff_get m k').mp hh
    exact (mapHas_iff_get _ _).mpr ⟨w, by rw [mapGet_mapSet_ne m k k' v h]; exact hw⟩
  · rw [Bool.not_eq_true] at hh
    rw [hh]
    rw [Bool.eq_false_iff]
    intro hc
    obtain ⟨w, hw⟩ := (mapHas_iff_get _ k').mp hc
    rw [mapGet_mapSet_ne m k k' v h] at hw
    exact absurd ((mapHas_iff_get m k').mpr ⟨w, hw⟩) (by rw [hh]; simp)

theorem keys_eraseP_not_mem {β : Type} (m : List (Key × β)) (k : Key)
    (hnd : (m.map fun e => e.1).Nodup) :
    ¬ k ∈ ((m.eraseP fun e => decide (e.1 = k)).map fun e => e.1) := by
  induction m with
  | nil => simp
  | cons e t ih =>
    rw [List.map_cons, List.nodup_cons] at hnd
    by_cases hek : e.1 = k
    · rw [List.eraseP_cons_of_pos (by simp [hek])]
      rw [← hek]
      exact hnd.1
    · rw [List.eraseP_cons_of_neg (by simp [hek])]
      rw [List.map_cons]
      rw [List.mem_cons]
      rintro (hc | hc)
      · exact hek hc.symm
      · exact ih hnd.2 hc

theorem keys_eraseP_sub {β : Type} (m : List (Key × β)) (p : (Key × β) → Bool) :
    ∀ x ∈ ((m.eraseP p).map fun e => e.1), x ∈ (m.map fun e => e.1) :=
  fun x hx => List.map_subset _ (List.eraseP_subset _) hx

theorem keys_eraseP_nodup {β : Type} (m : List (Key × β)) (p : (Key × β) → Bool)
    (hnd : (m.map fun e => e.1).Nodup) : ((m.eraseP p).map fun e => e.1).Nodup := by
  induction m with
  | nil => simp
  | cons e t ih =>
    rw [List.map_cons, List.nodup_cons] at hnd
    by_cases hp : p e = true
    · rw [List.eraseP_cons_of_pos hp]
      exact hnd.2
    · rw [List.eraseP_cons_of_neg hp]
      rw [List.map_cons, List.nodup_cons]
      refine ⟨fun hc => hnd.1 (keys_eraseP_sub t p _ hc), ih hnd.2⟩

theorem keys_mapSet_nodup {β : Type} (m : List (Key × β)) (k : Key) (v : β)
    (hnd : (m.map fun e => e.1).Nodup) :
    ((mapSet m k v).map fun e => e.1).Nodup := by
  unfold mapSet
  rw [List.map_cons, List.nodup_cons]
  exact ⟨keys_eraseP_not_mem m k hnd, keys_eraseP_nodup m _ hnd⟩

theorem mapHas_false_get {β : Type} (m : List (Key × β)) (k : Key)
    (h : ¬ mapHas m k = true) : mapGet m k = none := by
  cases hg : mapGet m k with
  | none => rfl
  | some v => exact absurd ((mapHas_iff_get m k).mpr ⟨v, hg⟩) h

/-! ### Binary-heap verification of the PriorityQueue (claim C10) -/

namespace PriorityQueue

theorem swapList_get? {α P : Type} (l : List (PQEntry α P)) (i j : Nat)
    (hi : i < l.length) (hj : j < l.length) (k : Nat) :
    (swapList l i j).get? k =
      if k = j then l.get? i else if k = i then l.get? j else l.get? k := by
  unfold swapList
  simp only [List.get?_eq_get hi, List.get?_eq_get hj]
  by_cases hkj : k = j
  · subst hkj
    rw [List.get?_set_eq_of_lt _ (by rw [List.length_set]; exact hj), if_pos rfl]
  · rw [List.get?_set_ne _ _ (fun h => hkj h.symm), if_neg hkj]
    by_cases hki : k = i
    · subst hki
      rw [List.get?_set_eq_of_lt _ hi, if_pos rfl]
    · rw [List.get?_set_ne _ _ (fun h => hki h.symm), if_neg hki]

theorem heapExceptUp_zero {α P : Type} [LinearOrder P] {l : List (PQEntry α P)}
    (hex : heapExceptUp l 0) : heapInv l := fun j hj =>
  hex.1 j hj (by omega)

theorem bubbleUpAux_heapInv {α P : Type} [LinearOrder P] (fuel : Nat) :
    ∀ (l : List (PQEntry α P)) (idx : Nat), idx ≤ fuel → idx < l.length →
      heapExceptUp l idx → heapInv (bubbleUpAux prioLe fuel l idx) := by
  induction fuel with
  | zero =>
    intro l idx hle hlen hex
    have h0 : idx = 0 := by omega
    subst h0
    exact heapExceptUp_zero hex
  | succ fuel ih =>
    intro l idx hle hlen hex
    cases idx with
    | zero => exact heapExceptUp_zero hex
    | succ idx =>
      simp only [bubbleUpAux]
      have hp : (idx + 1 - 1) / 2 < l.length := by omega
      simp only [List.get?_eq_get hp, List.get?_eq_get hlen]
      set pe := l.get ⟨(idx + 1 - 1) / 2, hp⟩ with hpe
      set ie := l.get ⟨idx + 1, hlen⟩ with hie
      by_cases hcmp : prioLe pe.priority ie.priority = true
      · rw [if_pos hcmp]
        intro j hj
        by_cases hji : j = idx + 1
        · subst hji
          intro a b ha hb
          rw [List.get?_eq_get hp] at ha
          rw [List.get?_eq_get hlen] at hb
          cases ha
          cases hb
          exact of_decide_eq_true hcmp
        · exact hex.1 j hj hji
      · rw [if_neg hcmp]
        have hlt : ie.priority < pe.priority :=
          not_le.mp fun h => hcmp (decide_eq_true h)
        have hswlen : (swapList l ((idx + 1 - 1) / 2) (idx + 1)).length = l.length :=
          swapList_length l _ _
        have hget : ∀ k, (swapList l ((idx + 1 - 1) / 2) (idx + 1)).get? k =
            if k = idx + 1 then some pe
            else if k = (idx + 1 - 1) / 2 then some ie
            else l.get? k := by
          intro k
          rw [swapList_get? l _ _ hp hlen k, List.get?_eq_get hp, List.get?_eq_get hlen]
        apply ih _ _ (by omega) (by rw [hswlen]; omega)
        constructor
        · intro j hj hjp a b ha hb
          rw [hget] at ha hb
          by_cases hji : j = idx + 1
          · subst hji
            rw [if_pos rfl] at hb
            rw [if_neg (by omega), if_pos rfl] at ha
            cases ha
            cases hb
            exact le_of_lt hlt
          · rw [if_neg hji] at hb
            by_cases hpar1 : (j - 1) / 2 = idx + 1
            · rw [if_pos hpar1] at ha
              cases ha
              have hjp2 : j ≠ (idx + 1 - 1) / 2 := by omega
              rw [if_neg hjp2] at hb
              exact hex.2 (Nat.succ_pos idx) j hpar1 pe b (List.get?_eq_get hp) hb
            · by_cases hpar2 : (j - 1) / 2 = (idx + 1 - 1) / 2
              · rw [if_neg hpar1, if_pos hpar2] at ha
                cases ha
                rw [if_neg hjp] at hb
                have hpb : pe.priority ≤ b.priority := by
                  have hh := hex.1 j hj hji
                  rw [hpar2] at hh
                  exact hh pe b (List.get?_eq_get hp) hb
                exact le_of_lt (lt_of_lt_of_le hlt hpb)
              · rw [if_neg hpar1, if_neg hpar2] at ha
                rw [if_neg hjp] at hb
                exact hex.1 j hj hji a b ha hb
        · intro hp0 j hjc a b ha hb
          rw [hget] at ha hb
          rw [if_neg (by omega), if_neg (by omega)] at ha
          by_cases hji : j = idx + 1
          · subst hji
            rw [if_pos rfl] at hb
            cases hb
            exact hex.1 _ hp0 (by omega) a pe ha (List.get?_eq_get hp)
          · rw [if_neg hji, if_neg (by omega)] at hb
            have h1 : a.priority ≤ pe.priority :=
              hex.1 _ hp0 (by omega) a pe ha (List.get?_eq_get hp)
            have h2 : pe.priority ≤ b.priority := by
              have hh := hex.1 j (by omega) hji
              rw [hjc] at hh
              exact hh pe b (List.get?_eq_get hp) hb
            exact le_trans h1 h2

theorem sinkSwapTarget_none_heapAt {α P : Type} [LinearOrder P] {l : List (PQEntry α P)}
    {idx : Nat} (h : sinkSwapTarget prioLt l idx = none) (j : Nat)
    (hj : j = 2 * idx + 1 ∨ j = 2 * idx + 2) : heapAt l idx j := by
  intro a b hidx hjget
  obtain ⟨hjlen, -⟩ := List.get?_eq_some.mp hjget
  by_contra hab
  have hba : b.priority < a.priority := not_le.mp hab
  unfold sinkSwapTarget at h
  dsimp only at h
  rcases hj with hj | hj
  · subst hj
    rw [hjget, hidx] at h
    split at h
    · split at h <;> cases h
    · rename_i hcond
      simp only [Bool.and_eq_true, decide_eq_true_eq, prioLt] at hcond
      exact hcond ⟨hjlen, hba⟩
  · subst hj
    rw [hjget, hidx] at h
    split at h
    · split at h <;> cases h
    · split at h
      · cases h
      · rename_i hcond2
        simp only [Bool.and_eq_true, decide_eq_true_eq, prioLt] at hcond2
        exact hcond2 ⟨hjlen, hba⟩

theorem sinkSwapTarget_some_spec {α P : Type} [LinearOrder P] {l : List (PQEntry α P)}
    {idx s : Nat} (h : sinkSwapTarget prioLt l idx = some s) :
    (s = 2 * idx + 1 ∨ s = 2 * idx + 2) ∧ s < l.length ∧
      (∀ a b, l.get? idx = some a → l.get? s = some b → b.priority < a.priority) ∧
      ∀ j, (j = 2 * idx + 1 ∨ j = 2 * idx + 2) → j ≠ s → heapAt l s j := by
  unfold sinkSwapTarget at h
  dsimp only at h
  split at h
  · rename_i hcond1
    obtain ⟨hlen1, hcmp1⟩ := (Bool.and_eq_true _ _).mp hcond1
    rw [decide_eq_true_eq] at hlen1
    obtain ⟨la, ia, hla, hia, hlia⟩ :
        ∃ la ia, l.get? (2 * idx + 1) = some la ∧ l.get? idx = some ia ∧
          la.priority < ia.priority := by
      revert hcmp1
      cases hL : l.get? (2 * idx + 1) <;> cases hI : l.get? idx <;> intro hcmp1 <;>
        first
        | cases hcmp1
        | exact ⟨_, _, rfl, rfl, of_decide_eq_true hcmp1⟩
    split at h
    · rename_i hcond2
      obtain ⟨hlen2, hcmp2⟩ := (Bool.and_eq_true _ _).mp hcond2
      rw [decide_eq_true_eq] at hlen2
      obtain ⟨ra, la2, hra, hla2, hrla⟩ :
          ∃ ra la2, l.get? (2 * idx + 2) = some ra ∧ l.get? (2 * idx + 1) = some la2 ∧
            ra.priority < la2.priority := by
        revert hcmp2
        cases hR : l.get? (2 * idx + 2) <;> cases hL : l.get? (2 * idx + 1) <;> intro hcmp2 <;>
          first
          | cases hcmp2
          | exact ⟨_, _, rfl, rfl, of_decide_eq_true hcmp2⟩
      rw [hla] at hla2
      cases hla2
      injection h with hs
      subst hs
      refine ⟨Or.inr rfl, hlen2, ?_, ?_⟩
      · intro a b ha hb
        rw [hia] at ha
        cases ha
        rw [hra] at hb
        cases hb
        exact lt_trans hrla hlia
      · intro j hjs hjne
        have hj1 : j = 2 * idx + 1 := by omega
        subst hj1
        intro a b ha hb
        rw [hra] at ha
        cases ha
        rw [hla] at hb
        cases hb
        exact le_of_lt hrla
    · rename_i hcond2
      injection h with hs
      subst hs
      refine ⟨Or.inl rfl, hlen1, ?_, ?_⟩
      · intro a b ha hb
        rw [hia] at ha
        cases ha
        rw [hla] at hb
        cases hb
        exact hlia
      · intro j hjs hjne
        have hj2 : j = 2 * idx + 2 := by omega
        subst hj2
        intro a b ha hb
        rw [hla] at ha
        cases ha
        have hrl : 2 * idx + 2 < l.length := (List.get?_eq_some.mp hb).1
        simp only [hb, hla, Bool.and_eq_true, decide_eq_true_eq, prioLt] at hcond2
        by_contra hab
        exact hcond2 ⟨hrl, not_le.mp hab⟩
  · rename_i hcond1
    split at h
    · rename_i hcond3
      obtain ⟨hlen3, hcmp3⟩ := (Bool.and_eq_true _ _).mp hcond3
      rw [decide_eq_true_eq] at hlen3
      obtain ⟨ra, ia, hra, hia, hria⟩ :
          ∃ ra ia, l.get? (2 * idx + 2) = some ra ∧ l.get? idx = some ia ∧
            ra.priority < ia.priority := by
        revert hcmp3
        cases hR : l.get? (2 * idx + 2) <;> cases hI : l.get? idx <;> intro hcmp3 <;>
          first
          | cases hcmp3
          | exact ⟨_, _, rfl, rfl, of_decide_eq_true hcmp3⟩
      injection h with hs
      subst hs
      refine ⟨Or.inr rfl, hlen3, ?_, ?_⟩
      · intro a b ha hb
        rw [hia] at ha
        cases ha
        rw [hra] at hb
        cases hb
        exact hria
      · intro j hjs hjne
        have hj1 : j = 2 * idx + 1 := by omega
        subst hj1
        intro a b ha hb
        rw [hra] at ha
        cases ha
        have hl1 : ¬ b.priority < ia.priority := by
          intro hlt
          apply hcond1
          simp only [Bool.and_eq_true, decide_eq_true_eq]
          refine ⟨by omega, ?_⟩
          rw [hb, hia]
          exact decide_eq_true hlt
        exact le_of_lt (lt_of_lt_of_le hria (not_lt.mp hl1))
    · cases h

theorem sinkDownAux_heapInv {α P : Type} [LinearOrder P] (fuel : Nat) :
    ∀ (l : List (PQEntry α P)) (idx : Nat), l.length - idx ≤ fuel →
      heapExceptDown l idx → heapInv (sinkDownAux prioLt fuel l idx) := by
  induction fuel with
  | zero =>
    intro l idx hfuel hex
    simp only [sinkDownAux]
    intro j hj
    by_cases hpar : (j - 1) / 2 = idx
    · intro a b ha hb
      rw [List.get?_eq_none.mpr (by omega)] at hb
      cases hb
    · exact hex.1 j hj hpar
  | succ fuel ih =>
    intro l idx hfuel hex
    simp only [sinkDownAux]
    cases hsw : sinkSwapTarget prioLt l idx with
    | none =>
      intro j hj
      by_cases hpar : (j - 1) / 2 = idx
      · have hjc : j = 2 * idx + 1 ∨ j = 2 * idx + 2 := by omega
        rw [hpar]
        exact sinkSwapTarget_none_heapAt hsw j hjc
      · exact hex.1 j hj hpar
    | some s =>
      obtain ⟨hs_shape, hs_len, hs_lt, hs_sib⟩ := sinkSwapTarget_some_spec hsw
      have hs_pos : 0 < s := by rcases hs_shape with h | h <;> omega
      have hs_gt : idx < s := by rcases hs_shape with h | h <;> omega
      have hspar : (s - 1) / 2 = idx := by rcases hs_shape with h | h <;> subst h <;> omega
      have hidx_len : idx < l.length := by omega
      have hget : ∀ k, (swapList l idx s).get? k =
          if k = s then l.get? idx else if k = idx then l.get? s else l.get? k :=
        swapList_get? l idx s hidx_len hs_len
      apply ih _ s (by rw [swapList_length]; omega)
      constructor
      · intro j hj hjs a b ha hb
        rw [hget] at ha hb
        by_cases hjeq : j = s
        · subst hjeq
          rw [if_pos rfl] at hb
          rw [hspar] at ha
          rw [if_neg (by omega), if_pos rfl] at ha
          exact le_of_lt (hs_lt b a hb ha)
        · rw [if_neg hjeq] at hb
          by_cases hjidx : j = idx
          · subst hjidx
            rw [if_pos rfl] at hb
            rw [if_neg (by omega), if_neg (by omega)] at ha
            exact hex.2 hj s hspar a b ha hb
          · rw [if_neg hjidx] at hb
            by_cases hpj : (j - 1) / 2 = idx
            · rw [if_neg hjs, if_pos hpj] at ha
              exact hs_sib j (by omega) hjeq a b ha hb
            · rw [if_neg hjs, if_neg hpj] at ha
              exact hex.1 j hj hpj a b ha hb
      · intro hs0 j hjc a b ha hb
        rw [hget] at ha hb
        rw [hspar] at ha
        rw [if_neg (by omega), if_pos rfl] at ha
        rw [if_neg (by omega), if_neg (by omega)] at hb
        have hh := hex.1 j (by omega) (by omega)
        rw [hjc] at hh
        exact hh a b ha hb

theorem enqueue_heapInv {α P : Type} [LinearOrder P] (q : PriorityQueue α P) (v : α) (p : P)
    (h : heapInv q.values) : heapInv (enqueue prioLe q v p).values := by
  unfold enqueue
  dsimp only
  apply bubbleUpAux_heapInv
  · exact le_refl _
  · rw [List.length_append]
    simp
  · constructor
    · intro j hj hjne a b ha hb
      have hjlen : j < q.values.length := by
        obtain ⟨hjl, -⟩ := List.get?_eq_some.mp hb
        rw [List.length_append] at hjl hjne
        simp only [List.length_cons, List.length_nil] at hjl hjne
        omega
      rw [List.get?_append (by omega)] at ha
      rw [List.get?_append hjlen] at hb
      exact h j hj a b ha hb
    · intro hpos j hjc a b ha hb
      exfalso
      obtain ⟨hjl, -⟩ := List.get?_eq_some.mp hb
      rw [List.length_append] at hjl hjc hpos
      simp only [List.length_cons, List.length_nil] at hjl hjc hpos
      omega

theorem dequeue_heapInv {α P : Type} [LinearOrder P] (q : PriorityQueue α P)
    (h : heapInv q.values) : heapInv (dequeue prioLt q).2.values := by
  obtain ⟨vals⟩ := q
  cases vals with
  | nil =>
    intro j hj a b ha hb
    cases ha
  | cons e rest =>
    cases rest with
    | nil =>
      intro j hj a b ha hb
      cases ha
    | cons r1 rs =>
      have htrans : ∀ (k : Nat) (b' : PQEntry α P),
          (r1 :: rs).dropLast.get? k = some b' → (r1 :: rs).get? k = some b' := by
        intro k b' hk
        have hklen : k < (r1 :: rs).length - 1 := by
          have hx := (List.get?_eq_some.mp hk).1
          rwa [List.length_dropLast] at hx
        rw [List.dropLast_eq_take, List.get?_take hklen] at hk
        exact hk
      show heapInv (sinkDownAux prioLt (rs.length + 1)
        ((r1 :: rs).getLast (List.cons_ne_nil r1 rs) :: (r1 :: rs).dropLast) 0)
      apply sinkDownAux_heapInv
      · simp only [List.length_cons, List.length_dropLast]
        omega
      · constructor
        · intro j hj hpar a b ha hb
          obtain ⟨j', rfl⟩ : ∃ j'', j = j'' + 1 := ⟨j - 1, by omega⟩
          obtain ⟨p', hp'⟩ : ∃ p', (j' + 1 - 1) / 2 = p' + 1 := ⟨(j' + 1 - 1) / 2 - 1, by omega⟩
          rw [hp', List.get?_cons_succ] at ha
          rw [List.get?_cons_succ] at hb
          have hh := h (j' + 1) (by omega)
          rw [hp'] at hh
          exact hh a b (htrans _ _ ha) (htrans _ _ hb)
        · intro h0
          exact absurd h0 (lt_irrefl 0)

theorem heapInv_root_le {α P : Type} [LinearOrder P] (l : List (PQEntry α P))
    (hinv : heapInv l) (j : Nat) :
    ∀ a b, l.get? 0 = some a → l.get? j = some b → a.priority ≤ b.priority := by
  induction j using Nat.strong_induction_on with
  | _ j ih =>
    intro a b ha hb
    cases j with
    | zero =>
      rw [ha] at hb
      cases hb
      exact le_refl _
    | succ j' =>
      obtain ⟨hjl, -⟩ := List.get?_eq_some.mp hb
      have hpl : (j' + 1 - 1) / 2 < l.length := by omega
      obtain ⟨c, hc⟩ : ∃ c, l.get? ((j' + 1 - 1) / 2) = some c := ⟨_, List.get?_eq_get hpl⟩
      exact le_trans (ih _ (by omega) a c ha hc)
        (hinv (j' + 1) (by omega) c b hc hb)

end PriorityQueue

/-- C10: from any queue state reachable by some sequence of `enqueue`
and `dequeue` operations, the array satisfies the binary min-heap
invariant; consequently `dequeue` on a non-empty queue returns the root
value, whose priority is minimal among all stored entries, and `dequeue`
on an empty queue returns the absent value (`undefined`). -/
theorem priorityQueue_min_heap {α P : Type} [LinearOrder P] (q : PriorityQueue α P)
    (hq : PQReachable q) :
    heapInv q.values ∧
      (∀ (e₀ : PQEntry α P) (es : List (PQEntry α P)), q.values = e₀ :: es →
        (PriorityQueue.dequeue prioLt q).1 = some e₀.val ∧
          ∀ e ∈ q.values, e₀.priority ≤ e.priority) ∧
      (q.values = [] → (PriorityQueue.dequeue prioLt q).1 = none) := by
  have hinv : heapInv q.values := by
    induction hq with
    | empty =>
      intro j hj a b ha hb
      cases ha
    | enq q' v p hq' ih => exact PriorityQueue.enqueue_heapInv q' v p ih
    | deq q' hq' ih => exact PriorityQueue.dequeue_heapInv q' ih
  refine ⟨hinv, ?_, ?_⟩
  · intro e₀ es hv
    constructor
    · obtain ⟨vals⟩ := q
      cases hv
      cases es <;> rfl
    · intro e he
      obtain ⟨j, hj⟩ := List.mem_iff_get?.mp he
      refine PriorityQueue.heapInv_root_le q.values hinv j e₀ e ?_ hj
      rw [hv]
      rfl
  · intro hv
    obtain ⟨vals⟩ := q
    cases hv
    rfl

/-- Witness for C10: a concrete enqueue/enqueue/dequeue run over `Nat`
priorities; the queue is reachable, the root has the minimal priority 2
and is the value dequeue returns. -/
theorem priorityQueue_min_heap_witness :
    (PriorityQueue.dequeue prioLt
        (PriorityQueue.enqueue prioLe
          (PriorityQueue.enqueue prioLe (⟨[]⟩ : PriorityQueue Nat Nat) 7 5) 9 2)).1 =
      some 9 :=
  ((priorityQueue_min_heap
      (PriorityQueue.enqueue prioLe
        (PriorityQueue.enqueue prioLe (⟨[]⟩ : PriorityQueue Nat Nat) 7 5) 9 2)
      (PQReachable.enq _ 9 2 (PQReachable.enq _ 7 5 PQReachable.empty))).2.1
    ⟨9, 2⟩ [⟨7, 5⟩] (by decide)).1

/-! ### A* on tree mazes (claim C2): carved-graph bridge lemmas -/

theorem isValidCell_iff {g : Grid} {r c : Int} :
    isValidCell g r c = true ↔ 0 ≤ r ∧ r < g.rows ∧ 0 ≤ c ∧ c < g.cols := by
  simp [isValidCell, and_assoc]

theorem carvedGraph_adj {g : Grid} {p q : Pos} :
    (carvedGraph g).Adj p q ↔ (carvedAdjB g p q = true ∨ carvedAdjB g q p = true) := by
  constructor
  · intro h
    have h' : (carvedAdjB g p q || carvedAdjB g q p) = true := h
    simpa using h'
  · intro h
    show (carvedAdjB g p q || carvedAdjB g q p) = true
    simpa using h

theorem mem_if_singleton {b : Bool} {x nb : Key} (h : nb ∈ if b = true then [x] else []) :
    b = true ∧ nb = x := by
  by_cases hb : b = true
  · rw [if_pos hb] at h
    simp at h
    exact ⟨hb, h⟩
  · rw [if_neg hb] at h
    simp at h

theorem getValidNeighbors_adjB {g : Grid} {r c : Int} {nb : Key}
    (hv : isValidCell g r c = true) (h : nb ∈ getValidNeighbors g r c) :
    carvedAdjB g (r, c) nb = true := by
  have hv' := isValidCell_iff.mp hv
  unfold getValidNeighbors at h
  simp only [List.mem_append] at h
  rcases h with ((h | h) | h) | h <;> obtain ⟨hb, hx⟩ := mem_if_singleton h <;> subst hx <;>
    simp only [Bool.and_eq_true, Bool.not_eq_true', decide_eq_true_eq] at hb <;>
    simp only [carvedAdjB, isValidCell, Bool.and_eq_true, Bool.or_eq_true,
      decide_eq_true_eq, Bool.not_eq_true', Prod.mk.injEq] <;>
    refine ⟨⟨?_, ?_⟩, ?_⟩
  · omega
  · omega
  · exact Or.inl (Or.inl (Or.inl ⟨trivial, hb.1⟩))
  · omega
  · omega
  · exact Or.inl (Or.inl (Or.inr ⟨trivial, hb.1⟩))
  · omega
  · omega
  · exact Or.inl (Or.inr ⟨trivial, hb.1⟩)
  · omega
  · omega
  · exact Or.inr ⟨trivial, hb.1⟩

theorem adjB_mem_getValidNeighbors {g : Grid} {p q : Pos}
    (h : carvedAdjB g p q = true) : q ∈ getValidNeighbors g p.1 p.2 := by
  simp only [carvedAdjB, Bool.and_eq_true, Bool.or_eq_true, decide_eq_true_eq,
    Bool.not_eq_true'] at h
  obtain ⟨⟨hvp, hvq⟩, hcase⟩ := h
  rw [isValidCell_iff] at hvp hvq
  unfold getValidNeighbors
  simp only [List.mem_append]
  rcases hcase with ((⟨hq, hw⟩ | ⟨hq, hw⟩) | ⟨hq, hw⟩) | ⟨hq, hw⟩
  · refine Or.inl (Or.inl (Or.inl ?_))
    subst hq
    have hc : (!(g.maze p.1 p.2).walls.top && decide (p.1 > 0)) = true := by
      simp only [Bool.and_eq_true, Bool.not_eq_true', decide_eq_true_eq]
      exact ⟨hw, by omega⟩
    rw [if_pos hc]
    simp
  · refine Or.inl (Or.inl (Or.inr ?_))
    subst hq
    have hc : (!(g.maze p.1 p.2).walls.right && decide (p.2 < g.cols - 1)) = true := by
      simp only [Bool.and_eq_true, Bool.not_eq_true', decide_eq_true_eq]
      exact ⟨hw, by omega⟩
    rw [if_pos hc]
    simp
  · refine Or.inl (Or.inr ?_)
    subst hq
    have hc : (!(g.maze p.1 p.2).walls.bottom && decide (p.1 < g.rows - 1)) = true := by
      simp only [Bool.and_eq_true, Bool.not_eq_true', decide_eq_true_eq]
      exact ⟨hw, by omega⟩
    rw [if_pos hc]
    simp
  · refine Or.inr ?_
    subst hq
    have hc : (!(g.maze p.1 p.2).walls.left && decide (p.2 > 0)) = true := by
      simp only [Bool.and_eq_true, Bool.not_eq_true', decide_eq_true_eq]
      exact ⟨hw, by omega⟩
    rw [if_pos hc]
    simp

theorem carvedAdjB_symm_of_wallSym {g : Grid} (hsym : wallSym g) {p q : Pos}
    (h : carvedAdjB g q p = true) : carvedAdjB g p q = true := by
  simp only [carvedAdjB, Bool.and_eq_true, Bool.or_eq_true, decide_eq_true_eq,
    Bool.not_eq_true'] at h
  obtain ⟨⟨hvq, hvp⟩, hcase⟩ := h
  simp only [carvedAdjB, Bool.and_eq_true, Bool.or_eq_true, decide_eq_true_eq,
    Bool.not_eq_true']
  refine ⟨⟨hvp, hvq⟩, ?_⟩
  rcases hcase with ((⟨hpq, hw⟩ | ⟨hpq, hw⟩) | ⟨hpq, hw⟩) | ⟨hpq, hw⟩
  · -- q's top flag cleared, p above q: p's bottom flag is cleared by symmetry
    have hp1 : p.1 = q.1 - 1 := by rw [hpq]
    have hp2 : p.2 = q.2 := by rw [hpq]
    have hv2 : isValidCell g (q.1 - 1) q.2 = true := by
      rw [← hp1, ← hp2]
      exact hvp
    have hs := hsym q.1 q.2 Dir.top hvq (by simpa [getCellInDirection] using hv2)
    simp only [getCellInDirection, getWall, opposite] at hs
    have hwp : (g.maze p.1 p.2).walls.bottom = false := by
      rw [hp1, hp2, ← hs]
      exact hw
    refine Or.inl (Or.inr ⟨?_, hwp⟩)
    exact Prod.ext (by show q.1 = p.1 + 1; omega) (by show q.2 = p.2; omega)
  · -- q's right flag cleared, p right of q: p's left flag is cleared by symmetry
    have hp1 : p.1 = q.1 := by rw [hpq]
    have hp2 : p.2 = q.2 + 1 := by rw [hpq]
    have hv2 : isValidCell g q.1 (q.2 + 1) = true := by
      rw [← hp1, ← hp2]
      exact hvp
    have hs := hsym q.1 q.2 Dir.right hvq (by simpa [getCellInDirection] using hv2)
    simp only [getCellInDirection, getWall, opposite] at hs
    have hwp : (g.maze p.1 p.2).walls.left = false := by
      rw [hp1, hp2, ← hs]
      exact hw
    refine Or.inr ⟨?_, hwp⟩
    exact Prod.ext (by show q.1 = p.1; omega) (by show q.2 = p.2 - 1; omega)
  · -- q's bottom flag cleared, p below q: p's top flag is cleared by symmetry
    have hp1 : p.1 = q.1 + 1 := by rw [hpq]
    have hp2 : p.2 = q.2 := by rw [hpq]
    have hv2 : isValidCell g (q.1 + 1) q.2 = true := by
      rw [← hp1, ← hp2]
      exact hvp
    have hs := hsym q.1 q.2 Dir.bottom hvq (by simpa [getCellInDirection] using hv2)
    simp only [getCellInDirection, getWall, opposite] at hs
    have hwp : (g.maze p.1 p.2).walls.top = false := by
      rw [hp1, hp2, ← hs]
      exact hw
    refine Or.inl (Or.inl (Or.inl ⟨?_, hwp⟩))
    exact Prod.ext (by show q.1 = p.1 - 1; omega) (by show q.2 = p.2; omega)
  · -- q's left flag cleared, p left of q: p's right flag is cleared by symmetry
    have hp1 : p.1 = q.1 := by rw [hpq]
    have hp2 : p.2 = q.2 - 1 := by rw [hpq]
    have hv2 : isValidCell g q.1 (q.2 - 1) = true := by
      rw [← hp1, ← hp2]
      exact hvp
    have hs := hsym q.1 q.2 Dir.left hvq (by simpa [getCellInDirection] using hv2)
    simp only [getCellInDirection, getWall, opposite] at hs
    have hwp : (g.maze p.1 p.2).walls.right = false := by
      rw [hp1, hp2, ← hs]
      exact hw
    refine Or.inl (Or.inl (Or.inr ⟨?_, hwp⟩))
    exact Prod.ext (by show q.1 = p.1; omega) (by show q.2 = p.2 + 1; omega)

theorem adj_mem_getValidNeighbors {g : Grid} (hsym : wallSym g) {p q : Pos}
    (h : (carvedGraph g).Adj p q) : q ∈ getValidNeighbors g p.1 p.2 := by
  rcases carvedGraph_adj.mp h with hb | hb
  · exact adjB_mem_getValidNeighbors hb
  · exact adjB_mem_getValidNeighbors (carvedAdjB_symm_of_wallSym hsym hb)

theorem adj_valid {g : Grid} {p q : Pos} (h : (carvedGraph g).Adj p q) :
    isValidCell g p.1 p.2 = true ∧ isValidCell g q.1 q.2 = true := by
  rcases carvedGraph_adj.mp h with hb | hb <;>
    simp only [carvedAdjB, Bool.and_eq_true] at hb
  · exact ⟨hb.1.1, hb.1.2⟩
  · exact ⟨hb.1.2, hb.1.1⟩

theorem adj_offset {g : Grid} {p q : Pos} (h : (carvedGraph g).Adj p q) :
    q = ((p.1 - 1, p.2) : Pos) ∨ q = ((p.1, p.2 + 1) : Pos) ∨
      q = ((p.1 + 1, p.2) : Pos) ∨ q = ((p.1, p.2 - 1) : Pos) := by
  rcases carvedGraph_adj.mp h with hb | hb <;>
    simp only [carvedAdjB, Bool.and_eq_true, Bool.or_eq_true, decide_eq_true_eq,
      Bool.not_eq_true'] at hb <;>
    rcases hb.2 with ((⟨hq, -⟩ | ⟨hq, -⟩) | ⟨hq, -⟩) | ⟨hq, -⟩
  · exact Or.inl hq
  · exact Or.inr (Or.inl hq)
  · exact Or.inr (Or.inr (Or.inl hq))
  · exact Or.inr (Or.inr (Or.inr hq))
  · have h1 : p.1 = q.1 - 1 := by rw [hq]
    have h2 : p.2 = q.2 := by rw [hq]
    exact Or.inr (Or.inr (Or.inl (Prod.ext (by show q.1 = p.1 + 1; omega)
      (by show q.2 = p.2; omega))))
  · have h1 : p.1 = q.1 := by rw [hq]
    have h2 : p.2 = q.2 + 1 := by rw [hq]
    exact Or.inr (Or.inr (Or.inr (Prod.ext (by show q.1 = p.1; omega)
      (by show q.2 = p.2 - 1; omega))))
  · have h1 : p.1 = q.1 + 1 := by rw [hq]
    have h2 : p.2 = q.2 := by rw [hq]
    exact Or.inl (Prod.ext (by show q.1 = p.1 - 1; omega) (by show q.2 = p.2; omega))
  · have h1 : p.1 = q.1 := by rw [hq]
    have h2 : p.2 = q.2 - 1 := by rw [hq]
    exact Or.inr (Or.inl (Prod.ext (by show q.1 = p.1; omega)
      (by show q.2 = p.2 + 1; omega)))

/-- The carved graph is bipartite by coordinate parity: every walk
changes the coordinate sum by its length modulo 2. -/
theorem walk_parity {g : Grid} : ∀ {p q : Pos} (w : (carvedGraph g).Walk p q),
    ∃ m : Int, p.1 + p.2 - (q.1 + q.2) - (w.length : Int) = 2 * m := by
  intro p q w
  induction w with
  | nil => exact ⟨0, by simp⟩
  | cons h w ih =>
    obtain ⟨m, hm⟩ := ih
    rw [SimpleGraph.Walk.length_cons]
    rcases adj_offset h with hq | hq | hq | hq <;> subst hq
    · exact ⟨m, by push_cast at hm ⊢; omega⟩
    · exact ⟨m - 1, by push_cast at hm ⊢; omega⟩
    · exact ⟨m - 1, by push_cast at hm ⊢; omega⟩
    · exact ⟨m, by push_cast at hm ⊢; omega⟩

/-- Adjacent cells are at different geodesic distances from any source
(parity argument). -/
theorem adj_dist_ne {g : Grid} {s p q : Pos} (h : (carvedGraph g).Adj p q)
    (hr : (carvedGraph g).Reachable s p) :
    (carvedGraph g).dist s p ≠ (carvedGraph g).dist s q := by
  have hrq : (carvedGraph g).Reachable s q := hr.trans h.reachable
  obtain ⟨w1, hw1⟩ := hr.exists_walk_length_eq_dist
  obtain ⟨w2, hw2⟩ := hrq.exists_walk_length_eq_dist
  obtain ⟨m1, hm1⟩ := walk_parity w1
  obtain ⟨m2, hm2⟩ := walk_parity w2
  rw [hw1] at hm1
  rw [hw2] at hm2
  intro hc
  rcases adj_offset h with hq | hq | hq | hq
  · have h1 : q.1 = p.1 - 1 := by rw [hq]
    have h2 : q.2 = p.2 := by rw [hq]
    omega
  · have h1 : q.1 = p.1 := by rw [hq]
    have h2 : q.2 = p.2 + 1 := by rw [hq]
    omega
  · have h1 : q.1 = p.1 + 1 := by rw [hq]
    have h2 : q.2 = p.2 := by rw [hq]
    omega
  · have h1 : q.1 = p.1 := by rw [hq]
    have h2 : q.2 = p.2 - 1 := by rw [hq]
    omega

/-- Stepping over one edge increases the distance from any source by at
most one. -/
theorem adj_dist_le {g : Grid} {s p q : Pos} (h : (carvedGraph g).Adj p q)
    (hr : (carvedGraph g).Reachable s p) :
    (carvedGraph g).dist s q ≤ (carvedGraph g).dist s p + 1 := by
  obtain ⟨w1, hw1⟩ := hr.exists_walk_length_eq_dist
  have hle := SimpleGraph.dist_le (w1.concat h)
  rwa [SimpleGraph.Walk.length_concat, hw1] at hle

/-- Adjacent cells are at geodesic distances exactly one apart. -/
theorem adj_dist_cases {g : Grid} {s p q : Pos} (h : (carvedGraph g).Adj p q)
    (hr : (carvedGraph g).Reachable s p) :
    (carvedGraph g).dist s q = (carvedGraph g).dist s p + 1 ∨
      (carvedGraph g).dist s p = (carvedGraph g).dist s q + 1 := by
  have h1 := adj_dist_le h hr
  have h2 := adj_dist_le h.symm (hr.trans h.reachable)
  have h3 := adj_dist_ne h hr
  omega

/-- On an acyclic carved graph every vertex has at most one neighbor on
the level below it: both lowest-level extensions of shortest paths reach
`w` along the same last edge. -/
theorem lower_neighbor_unique {g : Grid} (hacyc : (carvedGraph g).IsAcyclic)
    {s w u k : Pos} (h1 : (carvedGraph g).Adj u w) (h2 : (carvedGraph g).Adj k w)
    (hru : (carvedGraph g).Reachable s u) (hrk : (carvedGraph g).Reachable s k)
    (hd1 : (carvedGraph g).dist s w = (carvedGraph g).dist s u + 1)
    (hd2 : (carvedGraph g).dist s w = (carvedGraph g).dist s k + 1) : u = k := by
  obtain ⟨pu, hpu⟩ := hru.exists_walk_length_eq_dist
  obtain ⟨pk, hpk⟩ := hrk.exists_walk_length_eq_dist
  have hwu : (pu.concat h1).length = (carvedGraph g).dist s w := by
    rw [SimpleGraph.Walk.length_concat, hpu, hd1]
  have hwk : (pk.concat h2).length = (carvedGraph g).dist s w := by
    rw [SimpleGraph.Walk.length_concat, hpk, hd2]
  have hp1 : (pu.concat h1).IsPath := SimpleGraph.Walk.isPath_of_length_eq_dist _ hwu
  have hp2 : (pk.concat h2).IsPath := SimpleGraph.Walk.isPath_of_length_eq_dist _ hwk
  have hequ := SimpleGraph.isAcyclic_iff_path_unique.mp hacyc
    (⟨(pu.concat h1).reverse, hp1.reverse⟩ : (carvedGraph g).Path w s)
    (⟨(pk.concat h2).reverse, hp2.reverse⟩ : (carvedGraph g).Path w s)
  have heq : (pu.concat h1).reverse = (pk.concat h2).reverse :=
    congrArg Subtype.val hequ
  rw [SimpleGraph.Walk.reverse_concat, SimpleGraph.Walk.reverse_concat] at heq
  have hsup := congrArg SimpleGraph.Walk.support heq
  rw [SimpleGraph.Walk.support_cons, SimpleGraph.Walk.support_cons,
    SimpleGraph.Walk.support_eq_cons pu.reverse,
    SimpleGraph.Walk.support_eq_cons pk.reverse] at hsup
  simp only [List.cons.injEq] at hsup
  exact hsup.2.1

theorem mapHas_mem_keys {β : Type} (m : List (Key × β)) (k : Key) :
    mapHas m k = true ↔ k ∈ m.map fun e => e.1 := by
  unfold mapHas
  rw [List.any_eq_true]
  constructor
  · rintro ⟨e, he, hek⟩
    rw [decide_eq_true_eq] at hek
    exact hek ▸ List.mem_map_of_mem _ he
  · intro hk
    obtain ⟨e, he, hek⟩ := List.mem_map.mp hk
    exact ⟨e, he, decide_eq_true hek⟩

theorem mapHas_mono {β : Type} (m : List (Key × β)) (k k' : Key) (v : β)
    (h : mapHas m k' = true) : mapHas (mapSet m k v) k' = true := by
  by_cases he : k' = k
  · subst he
    exact mapHas_mapSet_self m k' v
  · rwa [mapHas_mapSet_ne m k k' v he]

theorem scored_spec {g : Grid} {start : Pos} {st : SolveState} (hS : ScoreInv g start st)
    {k : Key} (h : mapHas st.gScore k = true) :
    mapGet st.gScore k = some (some ((carvedGraph g).dist start k : Int)) ∧
      isValidCell g k.1 k.2 = true ∧ (carvedGraph g).Reachable start k := by
  obtain ⟨v, hv⟩ := (mapHas_iff_get _ _).mp h
  obtain ⟨hval, hvalid, hreach⟩ := hS.gval k v hv
  exact ⟨hval ▸ hv, hvalid, hreach⟩

theorem relaxNeighbor_closed {g : Grid} {endP : Pos} {currentKey nb : Key} {st : SolveState}
    (hcl : (st.closedSet.any fun e => decide (e = nb)) = true) :
    relaxNeighbor g endP currentKey st nb = st := by
  unfold relaxNeighbor
  rw [if_pos hcl]

theorem relaxNeighbor_skip {g : Grid} {endP : Pos} {currentKey nb : Key} {st : SolveState}
    (hcl : ¬ (st.closedSet.any fun e => decide (e = nb)) = true)
    (hcond : (!mapHas st.gScore nb
        || jsLtB (jsAdd ((mapGet st.gScore currentKey).join) (some 1))
          ((mapGet st.gScore nb).join)) = false) :
    relaxNeighbor g endP currentKey st nb = st := by
  unfold relaxNeighbor
  rw [if_neg hcl]
  simp only [hcond, Bool.false_eq_true, if_false]

theorem relaxNeighbor_update {g : Grid} {endP : Pos} {currentKey nb : Key} {st : SolveState}
    (hcl : ¬ (st.closedSet.any fun e => decide (e = nb)) = true)
    (hhas : mapHas st.gScore nb = false)
    (hcont : st.openSet.contains nb = false) :
    relaxNeighbor g endP currentKey st nb =
      { openSet := PriorityQueue.enqueue jsLeB st.openSet nb
          (jsAdd (jsAdd ((mapGet st.gScore currentKey).join) (some 1))
            (some (heuristic endP nb.1 nb.2)))
        closedSet := st.closedSet
        cameFrom := mapSet st.cameFrom nb currentKey
        gScore := mapSet st.gScore nb (jsAdd ((mapGet st.gScore currentKey).join) (some 1))
        fScore := mapSet st.fScore nb
          (jsAdd (jsAdd ((mapGet st.gScore currentKey).join) (some 1))
            (some (heuristic endP nb.1 nb.2))) } := by
  unfold relaxNeighbor
  rw [if_neg hcl]
  simp only [hhas, Bool.not_false, Bool.true_or, if_true, hcont, eq_self_iff_true]

/-- One relaxation step preserves the solver invariants, is monotone on
the scored keys, leaves the closed set unchanged, and leaves the
processed neighbor scored. -/
theorem relaxNeighbor_inv {g : Grid} {start endP : Pos} {currentKey nb : Key}
    {st : SolveState}
    (hacyc : (carvedGraph g).IsAcyclic)
    (hS : ScoreInv g start st) (hQ : QueueInv endP st)
    (hcur : mapHas st.gScore currentKey = true)
    (hnb : nb ∈ getValidNeighbors g currentKey.1 currentKey.2) :
    ScoreInv g start (relaxNeighbor g endP currentKey st nb) ∧
      QueueInv endP (relaxNeighbor g endP currentKey st nb) ∧
      mapHas (relaxNeighbor g endP currentKey st nb).gScore nb = true ∧
      (relaxNeighbor g endP currentKey st nb).closedSet = st.closedSet ∧
      (∀ k, mapHas st.gScore k = true →
        mapHas (relaxNeighbor g endP currentKey st nb).gScore k = true) := by
  obtain ⟨hcget, hcvalid, hcreach⟩ := scored_spec hS hcur
  have hAdjB : carvedAdjB g currentKey nb = true := by
    have h := getValidNeighbors_adjB hcvalid hnb
    rwa [Prod.mk.eta] at h
  have hAdj : (carvedGraph g).Adj currentKey nb := carvedGraph_adj.mpr (Or.inl hAdjB)
  have hnbvalid : isValidCell g nb.1 nb.2 = true := (adj_valid hAdj).2
  have hnbreach : (carvedGraph g).Reachable start nb := hcreach.trans hAdj.reachable
  by_cases hcl : (st.closedSet.any fun e => decide (e = nb)) = true
  · rw [relaxNeighbor_closed hcl]
    have hnbc : nb ∈ st.closedSet := by
      obtain ⟨e, he, hee⟩ := List.any_eq_true.mp hcl
      rw [decide_eq_true_eq] at hee
      exact hee ▸ he
    exact ⟨hS, hQ, hQ.closedSub nb hnbc, rfl, fun k h => h⟩
  · by_cases hhas : mapHas st.gScore nb = true
    · -- already-scored neighbor: its stored distance is already at most
      -- the tentative one, so the relaxation is a no-op
      obtain ⟨hnget, -, -⟩ := scored_spec hS hhas
      have hle : (carvedGraph g).dist start nb ≤ (carvedGraph g).dist start currentKey + 1 :=
        adj_dist_le hAdj hcreach
      have hcond : (!mapHas st.gScore nb
          || jsLtB (jsAdd ((mapGet st.gScore currentKey).join) (some 1))
            ((mapGet st.gScore nb).join)) = false := by
        rw [hhas, hcget, hnget]
        show (!true || jsLtB (some (((carvedGraph g).dist start currentKey : Int) + 1))
          (some (((carvedGraph g).dist start nb : Int)))) = false
        simp only [Bool.not_true, Bool.false_or, jsLtB]
        rw [decide_eq_false_iff_not]
        omega
      rw [relaxNeighbor_skip hcl hcond]
      exact ⟨hS, hQ, hhas, rfl, fun k h => h⟩
    · -- unscored neighbor: it gets the exact score one above the current key
      have hhasF : mapHas st.gScore nb = false := by
        cases h : mapHas st.gScore nb
        · rfl
        · exact absurd h hhas
      have hcont : st.openSet.contains nb = false := by
        cases hc : st.openSet.contains nb
        · rfl
        · exfalso
          obtain ⟨e, he, hev⟩ := (PriorityQueue.contains_iff st.openSet nb).mp hc
          have hsc := hQ.openSub e he
          rw [hev] at hsc
          exact hhas hsc
      have hnbstart : nb ≠ start := by
        intro hns
        rw [hns, hS.gstart] at hhasF
        exact absurd hhasF (by simp)
      have hd : (carvedGraph g).dist start nb = (carvedGraph g).dist start currentKey + 1 := by
        rcases adj_dist_cases hAdj hcreach with h | h
        · exact h
        · exfalso
          have hcs : currentKey ≠ start := by
            intro hcs
            rw [hcs, SimpleGraph.dist_self] at h
            omega
          exact hhas (hS.parents currentKey hcur hcs nb hAdj h.symm)
      have htg : jsAdd ((mapGet st.gScore currentKey).join) (some 1) =
          some (((carvedGraph g).dist start nb : Int)) := by
        rw [hcget]
        show some (((carvedGraph g).dist start currentKey : Int) + 1) =
          some (((carvedGraph g).dist start nb : Int))
        congr 1
        omega
      have e_o : (relaxNeighbor g endP currentKey st nb).openSet =
          PriorityQueue.enqueue jsLeB st.openSet nb
            (jsAdd (jsAdd ((mapGet st.gScore currentKey).join) (some 1))
              (some (heuristic endP nb.1 nb.2))) := by
        rw [relaxNeighbor_update hcl hhasF hcont]
      have e_cl : (relaxNeighbor g endP currentKey st nb).closedSet = st.closedSet := by
        rw [relaxNeighbor_update hcl hhasF hcont]
      have e_c : (relaxNeighbor g endP currentKey st nb).cameFrom =
          mapSet st.cameFrom nb currentKey := by
        rw [relaxNeighbor_update hcl hhasF hcont]
      have e_g : (relaxNeighbor g endP currentKey st nb).gScore =
          mapSet st.gScore nb (jsAdd ((mapGet st.gScore currentKey).join) (some 1)) := by
        rw [relaxNeighbor_update hcl hhasF hcont]
      have hperm := PriorityQueue.enqueue_perm jsLeB st.openSet nb
        (jsAdd (jsAdd ((mapGet st.gScore currentKey).join) (some 1))
          (some (heuristic endP nb.1 nb.2)))
      refine ⟨⟨?_, ?_, ?_, ?_, ?_, ?_⟩, ⟨?_, ?_, ?_, ?_, ?_, ?_⟩, ?_, e_cl, ?_⟩
      · -- gval
        intro k v hkv
        rw [e_g] at hkv
        by_cases hk : k = nb
        · subst hk
          rw [mapGet_mapSet_self] at hkv
          injection hkv with hv
          subst hv
          exact ⟨htg, hnbvalid, hnbreach⟩
        · rw [mapGet_mapSet_ne _ _ _ _ hk] at hkv
          exact hS.gval k v hkv
      · -- gstart
        rw [e_g]
        exact mapHas_mono _ _ _ _ hS.gstart
      · -- parents
        intro k hk hkstart w hw hdw
        rw [e_g] at hk ⊢
        by_cases hknb : k = nb
        · subst hknb
          have hwreach : (carvedGraph g).Reachable start w := hnbreach.trans hw.reachable
          have hueq : w = currentKey :=
            lower_neighbor_unique hacyc hw.symm hAdj hwreach hcreach (by omega) (by omega)
          subst hueq
          exact mapHas_mono _ _ _ _ hcur
        · have hk2 : mapHas st.gScore k = true := by
            rwa [mapHas_mapSet_ne _ _ _ _ hknb] at hk
          exact mapHas_mono _ _ _ _ (hS.parents k hk2 hkstart w hw hdw)
      · -- came
        intro k v hkv
        rw [e_c] at hkv
        rw [e_g]
        by_cases hknb : k = nb
        · subst hknb
          rw [mapGet_mapSet_self] at hkv
          injection hkv with hv
          subst hv
          exact ⟨hAdj, hd, mapHas_mono _ _ _ _ hcur⟩
        · rw [mapGet_mapSet_ne _ _ _ _ hknb] at hkv
          obtain ⟨h1, h2, h3⟩ := hS.came k v hkv
          exact ⟨h1, h2, mapHas_mono _ _ _ _ h3⟩
      · -- cameHas
        intro k
        rw [e_c, e_g]
        by_cases hknb : k = nb
        · subst hknb
          constructor
          · intro _h
            exact ⟨mapHas_mapSet_self _ _ _, hnbstart⟩
          · intro _h
            exact mapHas_mapSet_self _ _ _
        · rw [mapHas_mapSet_ne _ _ _ _ hknb, mapHas_mapSet_ne _ _ _ _ hknb]
          exact hS.cameHas k
      · -- cameNodup
        rw [e_c]
        exact keys_mapSet_nodup _ _ _ hS.cameNodup
      · -- openSub
        intro e he
        rw [e_o] at he
        rw [e_g]
        rcases List.mem_append.mp (hperm.subset he) with h | h
        · exact mapHas_mono _ _ _ _ (hQ.openSub e h)
        · rw [List.mem_singleton] at h
          subst h
          exact mapHas_mapSet_self _ _ _
      · -- closedSub
        intro k hk
        rw [e_cl] at hk
        rw [e_g]
        exact mapHas_mono _ _ _ _ (hQ.closedSub k hk)
      · -- partition
        intro k hk
        rw [e_g] at hk
        simp only [openKeys, e_o, e_cl]
        by_cases hknb : k = nb
        · subst hknb
          left
          constructor
          · exact ((hperm.map _).mem_iff).mpr (by simp)
          · intro hmem
            exact hcl (List.any_eq_true.mpr ⟨_, hmem, by simp⟩)
        · have hk2 : mapHas st.gScore k = true := by
            rwa [mapHas_mapSet_ne _ _ _ _ hknb] at hk
          rcases hQ.partition k hk2 with ⟨ho, hc⟩ | ⟨hc, ho⟩
          · left
            refine ⟨?_, hc⟩
            unfold openKeys at ho
            refine ((hperm.map _).mem_iff).mpr ?_
            rw [List.map_append]
            exact List.mem_append.mpr (Or.inl ho)
          · right
            refine ⟨hc, ?_⟩
            intro hmem
            unfold openKeys at ho
            have hm := ((hperm.map _).mem_iff).mp hmem
            rw [List.map_append] at hm
            rcases List.mem_append.mp hm with h | h
            · exact ho h
            · simp at h
              exact hknb h
      · -- openNodup
        simp only [openKeys, e_o]
        refine ((hperm.map _).nodup_iff).mpr ?_
        rw [List.map_append, List.nodup_append]
        refine ⟨hQ.openNodup, List.nodup_singleton _, ?_⟩
        intro a ha hb
        simp at hb
        subst hb
        obtain ⟨e, he, hev⟩ := List.mem_map.mp ha
        have hsc := hQ.openSub e he
        rw [hev] at hsc
        exact hhas hsc
      · -- closedNodup
        rw [e_cl]
        exact hQ.closedNodup
      · -- endOpen
        rw [e_cl]
        exact hQ.endOpen
      · -- the neighbor is scored afterwards
        rw [e_g]
        exact mapHas_mapSet_self _ _ _
      · -- monotone on scored keys
        intro k h
        rw [e_g]
        exact mapHas_mono _ _ _ _ h

/-- The neighbor `for` loop preserves the invariants, leaves the closed
set unchanged, is monotone on scored keys, and scores every processed
neighbor. -/
theorem relaxFold_inv {g : Grid} {start endP : Pos} {currentKey : Key}
    (hacyc : (carvedGraph g).IsAcyclic) :
    ∀ (nbs : List Key) (st : SolveState), ScoreInv g start st → QueueInv endP st →
      mapHas st.gScore currentKey = true →
      (∀ nb ∈ nbs, nb ∈ getValidNeighbors g currentKey.1 currentKey.2) →
      ScoreInv g start (nbs.foldl (relaxNeighbor g endP currentKey) st) ∧
        QueueInv endP (nbs.foldl (relaxNeighbor g endP currentKey) st) ∧
        (nbs.foldl (relaxNeighbor g endP currentKey) st).closedSet = st.closedSet ∧
        (∀ k, mapHas st.gScore k = true →
          mapHas (nbs.foldl (relaxNeighbor g endP currentKey) st).gScore k = true) ∧
        (∀ nb ∈ nbs,
          mapHas (nbs.foldl (relaxNeighbor g endP currentKey) st).gScore nb = true) := by
  intro nbs
  induction nbs with
  | nil =>
    intro st hS hQ hcur hmem
    exact ⟨hS, hQ, rfl, fun k h => h, by simp⟩
  | cons nb rest ih =>
    intro st hS hQ hcur hmem
    obtain ⟨hS1, hQ1, hnb1, hcl1, hmono1⟩ :=
      relaxNeighbor_inv hacyc hS hQ hcur (hmem nb (by simp))
    obtain ⟨hS2, hQ2, hcl2, hmono2, hall2⟩ :=
      ih (relaxNeighbor g endP currentKey st nb) hS1 hQ1 (hmono1 _ hcur)
        (fun x hx => hmem x (by simp [hx]))
    rw [List.foldl_cons]
    refine ⟨hS2, hQ2, by rw [hcl2, hcl1], fun k h => hmono2 k (hmono1 k h), ?_⟩
    intro x hx
    rcases List.mem_cons.mp hx with hx | hx
    · subst hx
      exact hmono2 _ hnb1
    · exact hall2 x hx

/-- Along a walk from a vertex satisfying `P` to one violating it there
is an edge crossing the boundary. -/
theorem walk_frontier {g : Grid} (P : Pos → Prop) :
    ∀ {a b : Pos} (w : (carvedGraph g).Walk a b), P a → ¬ P b →
      ∃ u v, (carvedGraph g).Adj u v ∧ P u ∧ ¬ P v := by
  intro a b w
  induction w with
  | nil =>
    intro ha hb
    exact absurd ha hb
  | @cons u v bb h w ih =>
    intro ha hb
    by_cases hc : P v
    · exact ih hc hb
    · exact ⟨u, v, h, ha, hc⟩

theorem mem_cellFinset {g : Grid} {p : Pos} :
    p ∈ cellFinset g ↔ isValidCell g p.1 p.2 = true := by
  unfold cellFinset
  rw [Finset.mem_product, Finset.mem_Icc, Finset.mem_Icc, isValidCell_iff]
  constructor
  · intro h
    omega
  · intro h
    omega

/-- One unfolding of the solver loop when the open set is non-empty. -/
theorem solveLoop_succ {g : Grid} {endKey : Key} {fuel : Nat} {st : SolveState}
    {e : PQEntry Key JsNum} {rest : List (PQEntry Key JsNum)}
    (hvals : st.openSet.values = e :: rest) :
    solveLoop g endKey (fuel + 1) st =
      (if e.val = endKey then
        (true, { st with openSet := (PriorityQueue.dequeue jsLtB st.openSet).2 }, 1)
      else
        ((solveLoop g endKey fuel ((getValidNeighbors g e.val.1 e.val.2).foldl
            (relaxNeighbor g endKey e.val)
            { st with
              openSet := (PriorityQueue.dequeue jsLtB st.openSet).2
              closedSet := e.val :: st.closedSet })).1,
         (solveLoop g endKey fuel ((getValidNeighbors g e.val.1 e.val.2).foldl
            (relaxNeighbor g endKey e.val)
            { st with
              openSet := (PriorityQueue.dequeue jsLtB st.openSet).2
              closedSet := e.val :: st.closedSet })).2.1,
         (solveLoop g endKey fuel ((getValidNeighbors g e.val.1 e.val.2).foldl
            (relaxNeighbor g endKey e.val)
            { st with
              openSet := (PriorityQueue.dequeue jsLtB st.openSet).2
              closedSet := e.val :: st.closedSet })).2.2 + 1)) := by
  obtain ⟨⟨vals⟩, cs, cf, gs, fs⟩ := st
  have hv : vals = e :: rest := hvals
  subst hv
  cases rest with
  | nil => rfl
  | cons r1 rs => rfl

/-- Main loop lemma: with the invariants holding and enough fuel to close
every remaining cell, the solver finds End with exact score maps. -/
theorem solveLoop_inv {g : Grid} {start endP : Pos}
    (hsym : wallSym g) (hacyc : (carvedGraph g).IsAcyclic)
    (hval : isValidCell g endP.1 endP.2 = true)
    (hreach : (carvedGraph g).Reachable start endP) :
    ∀ (fuel : Nat) (st : SolveState), ScoreInv g start st → QueueInv endP st →
      ClosedExp g st →
      (cellFinset g).card ≤ fuel + st.closedSet.length →
      ∃ st2 n, solveLoop g endP fuel st = (true, st2, n) ∧
        ScoreInv g start st2 ∧ mapHas st2.gScore endP = true := by
  intro fuel
  induction fuel with
  | zero =>
    intro st hS hQ hCE hcard
    exfalso
    have hmemE : endP ∈ cellFinset g := mem_cellFinset.mpr hval
    have hsub : st.closedSet.toFinset ⊆ (cellFinset g).erase endP := by
      intro x hx
      rw [List.mem_toFinset] at hx
      refine Finset.mem_erase.mpr ⟨?_, ?_⟩
      · intro hxe
        rw [hxe] at hx
        exact hQ.endOpen hx
      · have hsc := hQ.closedSub x hx
        obtain ⟨-, hvalid, -⟩ := scored_spec hS hsc
        exact mem_cellFinset.mpr hvalid
    have hlen : st.closedSet.length ≤ ((cellFinset g).erase endP).card := by
      rw [← List.toFinset_card_of_nodup hQ.closedNodup]
      exact Finset.card_le_card hsub
    rw [Finset.card_erase_of_mem hmemE] at hlen
    have hpos : 0 < (cellFinset g).card := Finset.card_pos.mpr ⟨endP, hmemE⟩
    omega
  | succ fuel ih =>
    intro st hS hQ hCE hcard
    have hopen : st.openSet.values ≠ [] := by
      by_cases hise : mapHas st.gScore endP = true
      · rcases hQ.partition endP hise with ⟨ho, -⟩ | ⟨hc, -⟩
        · unfold openKeys at ho
          intro hnil
          rw [hnil] at ho
          simp at ho
        · exact absurd hc hQ.endOpen
      · obtain ⟨w⟩ := hreach
        obtain ⟨u, v, huv, hpu, hpv⟩ :=
          walk_frontier (fun p => mapHas st.gScore p = true) w hS.gstart hise
        have hunc : ¬ u ∈ st.closedSet := fun hc => hpv (hCE u hc v huv)
        rcases hQ.partition u hpu with ⟨ho, -⟩ | ⟨hc, -⟩
        · unfold openKeys at ho
          intro hnil
          rw [hnil] at ho
          simp at ho
        · exact absurd hc hunc
    obtain ⟨e, rest, hvals⟩ : ∃ e rest, st.openSet.values = e :: rest := by
      cases hv : st.openSet.values with
      | nil => exact absurd hv hopen
      | cons e r => exact ⟨e, r, rfl⟩
    have hdqperm : (PriorityQueue.dequeue jsLtB st.openSet).2.values.Perm rest :=
      PriorityQueue.dequeue_perm jsLtB st.openSet e rest hvals
    have hcur : mapHas st.gScore e.val = true := hQ.openSub e (by rw [hvals]; simp)
    rw [solveLoop_succ hvals]
    by_cases hend : e.val = endP
    · rw [if_pos hend]
      refine ⟨_, 1, rfl, ?_, ?_⟩
      · exact ⟨hS.gval, hS.gstart, hS.parents, hS.came, hS.cameHas, hS.cameNodup⟩
      · show mapHas st.gScore endP = true
        rw [← hend]
        exact hcur
    · rw [if_neg hend]
      have hok : openKeys st = e.val :: rest.map (fun x => x.val) := by
        unfold openKeys
        rw [hvals, List.map_cons]
      have hoknodup := hQ.openNodup
      rw [hok] at hoknodup
      have henotrest : ¬ e.val ∈ rest.map (fun x => x.val) := (List.nodup_cons.mp hoknodup).1
      have hrestnodup : (rest.map (fun x => x.val)).Nodup := (List.nodup_cons.mp hoknodup).2
      have heclosed : ¬ e.val ∈ st.closedSet := by
        rcases hQ.partition e.val hcur with ⟨-, hc⟩ | ⟨-, ho⟩
        · exact hc
        · exact absurd (by rw [hok]; simp) ho
      have hS2 : ScoreInv g start { st with
          openSet := (PriorityQueue.dequeue jsLtB st.openSet).2
          closedSet := e.val :: st.closedSet } :=
        ⟨hS.gval, hS.gstart, hS.parents, hS.came, hS.cameHas, hS.cameNodup⟩
      have hQ2 : QueueInv endP { st with
          openSet := (PriorityQueue.dequeue jsLtB st.openSet).2
          closedSet := e.val :: st.closedSet } := by
        refine ⟨?_, ?_, ?_, ?_, ?_, ?_⟩
        · intro e2 he2
          show mapHas st.gScore e2.val = true
          refine hQ.openSub e2 ?_
          rw [hvals]
          exact List.mem_cons_of_mem _ (hdqperm.subset he2)
        · intro k hk
          show mapHas st.gScore k = true
          rcases List.mem_cons.mp hk with h | h
          · rw [h]
            exact hcur
          · exact hQ.closedSub k h
        · intro k hk
          by_cases hke : k = e.val
          · subst hke
            right
            refine ⟨List.mem_cons_self _ _, ?_⟩
            intro hmem
            unfold openKeys at hmem
            exact henotrest (((hdqperm.map (fun x => x.val)).mem_iff).mp hmem)
          · rcases hQ.partition k hk with ⟨ho, hc⟩ | ⟨hc, ho⟩
            · left
              refine ⟨?_, ?_⟩
              · show k ∈ openKeys _
                unfold openKeys
                refine ((hdqperm.map _).mem_iff).mpr ?_
                rw [hok] at ho
                rcases List.mem_cons.mp ho with h | h
                · exact absurd h hke
                · exact h
              · intro hmem
                rcases List.mem_cons.mp hmem with h | h
                · exact hke h
                · exact hc h
            · right
              refine ⟨List.mem_cons_of_mem _ hc, ?_⟩
              intro hmem
              unfold openKeys at hmem
              have hm := ((hdqperm.map (fun x => x.val)).mem_iff).mp hmem
              refine ho ?_
              rw [hok]
              exact List.mem_cons_of_mem _ hm
        · show (openKeys _).Nodup
          unfold openKeys
          exact ((hdqperm.map _).nodup_iff).mpr hrestnodup
        · exact List.nodup_cons.mpr ⟨heclosed, hQ.closedNodup⟩
        · intro hmem
          rcases List.mem_cons.mp hmem with h | h
          · exact hend h.symm
          · exact hQ.endOpen h
      obtain ⟨hS3, hQ3, hcl3, hmono3, hall3⟩ :=
        relaxFold_inv hacyc (getValidNeighbors g e.val.1 e.val.2)
          { st with
            openSet := (PriorityQueue.dequeue jsLtB st.openSet).2
            closedSet := e.val :: st.closedSet }
          hS2 hQ2 hcur (fun nb h => h)
      have hCE3 : ClosedExp g ((getValidNeighbors g e.val.1 e.val.2).foldl
          (relaxNeighbor g endP e.val)
          { st with
            openSet := (PriorityQueue.dequeue jsLtB st.openSet).2
            closedSet := e.val :: st.closedSet }) := by
        intro k hk w hw
        rw [hcl3] at hk
        rcases List.mem_cons.mp hk with h | h
        · subst h
          exact hall3 w (adj_mem_getValidNeighbors hsym hw)
        · exact hmono3 w (hCE k h w hw)
      have hcard3 : (cellFinset g).card ≤ fuel + ((getValidNeighbors g e.val.1 e.val.2).foldl
          (relaxNeighbor g endP e.val)
          { st with
            openSet := (PriorityQueue.dequeue jsLtB st.openSet).2
            closedSet := e.val :: st.closedSet }).closedSet.length := by
        rw [hcl3]
        show (cellFinset g).card ≤ fuel + (e.val :: st.closedSet).length
        rw [List.length_cons]
        omega
      obtain ⟨st4, n, heq, hS4, he4⟩ := ih _ hS3 hQ3 hCE3 hcard3
      refine ⟨st4, n + 1, ?_, hS4, he4⟩
      rw [heq]

/-- With exact scores, the reconstructed path from a scored key has
length one more than its geodesic distance from Start, given enough
fuel. -/
theorem reconstructPath_length {g : Grid} {start : Pos} {st : SolveState}
    (hS : ScoreInv g start st) :
    ∀ (fuel : Nat) (k : Key), mapHas st.gScore k = true →
      (carvedGraph g).dist start k ≤ fuel →
      (reconstructPath st.cameFrom fuel k).length = (carvedGraph g).dist start k + 1 := by
  intro fuel
  induction fuel with
  | zero =>
    intro k hk hle
    show ([k] : List Key).length = _
    simp only [List.length_singleton]
    omega
  | succ fuel ih =>
    intro k hk hle
    by_cases hks : k = start
    · subst hks
      have hget : mapGet st.cameFrom k = none := by
        cases hg : mapGet st.cameFrom k with
        | none => rfl
        | some v =>
          obtain ⟨-, hne⟩ := (hS.cameHas k).mp ((mapHas_iff_get _ _).mpr ⟨v, hg⟩)
          exact absurd rfl hne
      show (match mapGet st.cameFrom k with
        | some prev => reconstructPath st.cameFrom fuel prev ++ [k]
        | none => [k]).length = _
      rw [hget]
      simp [SimpleGraph.dist_self]
    · have hc : mapHas st.cameFrom k = true := (hS.cameHas k).mpr ⟨hk, hks⟩
      obtain ⟨v, hv⟩ := (mapHas_iff_get _ _).mp hc
      obtain ⟨hadj, hdist, hvsc⟩ := hS.came k v hv
      show (match mapGet st.cameFrom k with
        | some prev => reconstructPath st.cameFrom fuel prev ++ [k]
        | none => [k]).length = _
      rw [hv]
      show (reconstructPath st.cameFrom fuel v ++ [k]).length = _
      rw [List.length_append, ih v hvsc (by omega)]
      simp only [List.length_singleton]
      omega

/-- The predecessor map stores a strictly descending chain below every
scored key. -/
theorem cameFrom_chain {g : Grid} {start : Pos} {st : SolveState}
    (hS : ScoreInv g start st) :
    ∀ (n : Nat) (k : Key), mapHas st.gScore k = true →
      (carvedGraph g).dist start k = n →
      ∃ l : List Key, l.Nodup ∧ l.length = n ∧
        ∀ x ∈ l, mapHas st.cameFrom x = true ∧
          0 < (carvedGraph g).dist start x ∧ (carvedGraph g).dist start x ≤ n := by
  intro n
  induction n with
  | zero =>
    intro k hk hd
    exact ⟨[], List.nodup_nil, rfl, by simp⟩
  | succ n ih =>
    intro k hk hd
    have hks : k ≠ start := by
      intro h
      rw [h, SimpleGraph.dist_self] at hd
      omega
    have hc : mapHas st.cameFrom k = true := (hS.cameHas k).mpr ⟨hk, hks⟩
    obtain ⟨v, hv⟩ := (mapHas_iff_get _ _).mp hc
    obtain ⟨hadj, hdist, hvsc⟩ := hS.came k v hv
    have hdv : (carvedGraph g).dist start v = n := by omega
    obtain ⟨l, hnd, hlen, hprop⟩ := ih v hvsc hdv
    refine ⟨k :: l, ?_, ?_, ?_⟩
    · rw [List.nodup_cons]
      refine ⟨?_, hnd⟩
      intro hkl
      obtain ⟨-, -, hle⟩ := hprop k hkl
      omega
    · rw [List.length_cons, hlen]
    · intro x hx
      rcases List.mem_cons.mp hx with h | h
      · subst h
        exact ⟨hc, by omega, by omega⟩
      · obtain ⟨h1, h2, h3⟩ := hprop x h
        exact ⟨h1, h2, by omega⟩

/-- The size of the predecessor map bounds the distance of every scored
key, so the reconstruction fuel used by `solveMaze` suffices. -/
theorem cameFrom_length_ge {g : Grid} {start : Pos} {st : SolveState}
    (hS : ScoreInv g start st) {k : Key} (hk : mapHas st.gScore k = true) :
    (carvedGraph g).dist start k ≤ st.cameFrom.length := by
  obtain ⟨l, hnd, hlen, hprop⟩ := cameFrom_chain hS ((carvedGraph g).dist start k) k hk rfl
  have hsub : l ⊆ st.cameFrom.map fun e => e.1 := by
    intro x hx
    exact (mapHas_mem_keys _ _).mp (hprop x hx).1
  have hle := (List.subperm_of_subset hnd hsub).length_le
  rw [hlen, List.length_map] at hle
  exact hle

theorem toNat_mul_of_nonneg {a b : Int} (ha : 0 ≤ a) (hb : 0 ≤ b) :
    (a * b).toNat = a.toNat * b.toNat := by
  lift a to ℕ using ha
  lift b to ℕ using hb
  rw [← Nat.cast_mul, Int.toNat_natCast, Int.toNat_natCast, Int.toNat_natCast]

/-- C2: on a fully carved maze — wall flags symmetric, the carved
corridor graph acyclic and connecting Start to every in-bounds cell —
`solveMaze` succeeds and the reconstructed path visits exactly
`dist(Start, End) + 1` cells, i.e. its edge count equals the unique
tree-distance between Start and End: A* with the Manhattan heuristic
returns a shortest path in unweighted-step count. -/
theorem solveMaze_tree_shortest (g : Grid) (start endP : Pos)
    (hs : isValidCell g start.1 start.2 = true)
    (he : isValidCell g endP.1 endP.2 = true)
    (hsym : wallSym g) (hacyc : (carvedGraph g).IsAcyclic)
    (hconn : ∀ p : Pos, isValidCell g p.1 p.2 = true → (carvedGraph g).Reachable start p) :
    ∃ n path, solveMaze g start endP false = some (true, n, path) ∧
      path.length = (carvedGraph g).dist start endP + 1 := by
  have hreach := hconn endP he
  have hbounds := isValidCell_iff.mp hs
  have hSinit : ScoreInv g start
      { openSet := PriorityQueue.enqueue jsLeB ⟨[]⟩ start (some 0)
        closedSet := []
        cameFrom := []
        gScore := mapSet [] start (some 0)
        fScore := mapSet [] start (some (heuristic endP start.1 start.2)) } := by
    refine ⟨?_, ?_, ?_, ?_, ?_, ?_⟩
    · intro k v hkv0
      have hkv : mapGet (mapSet ([] : List (Key × JsNum)) start (some 0)) k = some v := hkv0
      by_cases hk : k = start
      · subst hk
        rw [mapGet_mapSet_self] at hkv
        injection hkv with hv
        subst hv
        refine ⟨?_, hs, SimpleGraph.Reachable.refl _⟩
        rw [SimpleGraph.dist_self]
        simp
      · rw [mapGet_mapSet_ne _ _ _ _ hk] at hkv
        simp [mapGet] at hkv
    · show mapHas (mapSet ([] : List (Key × JsNum)) start (some 0)) start = true
      exact mapHas_mapSet_self _ _ _
    · intro k hk0 hkstart w hw hdw
      have hk : mapHas (mapSet ([] : List (Key × JsNum)) start (some 0)) k = true := hk0
      exfalso
      rw [mapHas_mapSet_ne _ _ _ _ hkstart] at hk
      simp [mapHas] at hk
    · intro k v hkv0
      have hkv : mapGet ([] : List (Key × Key)) k = some v := hkv0
      simp [mapGet] at hkv
    · intro k
      constructor
      · intro hc0
        have hc : mapHas ([] : List (Key × Key)) k = true := hc0
        simp [mapHas] at hc
      · rintro ⟨hg0, hne⟩
        have hg : mapHas (mapSet ([] : List (Key × JsNum)) start (some 0)) k = true := hg0
        exfalso
        rw [mapHas_mapSet_ne _ _ _ _ hne] at hg
        simp [mapHas] at hg
    · show (([] : List (Key × Key)).map fun e => e.1).Nodup
      simp
  have hQinit : QueueInv endP
      { openSet := PriorityQueue.enqueue jsLeB ⟨[]⟩ start (some 0)
        closedSet := []
        cameFrom := []
        gScore := mapSet [] start (some 0)
        fScore := mapSet [] start (some (heuristic endP start.1 start.2)) } := by
    refine ⟨?_, ?_, ?_, ?_, ?_, ?_⟩
    · intro e he0
      have heMem : e ∈ [(⟨start, some 0⟩ : PQEntry Key JsNum)] := he0
      rw [List.mem_singleton] at heMem
      subst heMem
      show mapHas (mapSet ([] : List (Key × JsNum)) start (some 0)) start = true
      exact mapHas_mapSet_self _ _ _
    · intro k hk
      cases hk
    · intro k hk0
      have hk : mapHas (mapSet ([] : List (Key × JsNum)) start (some 0)) k = true := hk0
      left
      have hks : k = start := by
        by_cases h : k = start
        · exact h
        · exfalso
          rw [mapHas_mapSet_ne _ _ _ _ h] at hk
          simp [mapHas] at hk
      subst hks
      constructor
      · show k ∈ ([k] : List Key)
        simp
      · intro hc
        cases hc
    · show ([start] : List Key).Nodup
      simp
    · show ([] : List Key).Nodup
      simp
    · intro hc
      cases hc
  have hCEinit : ClosedExp g
      { openSet := PriorityQueue.enqueue jsLeB ⟨[]⟩ start (some 0)
        closedSet := []
        cameFrom := []
        gScore := mapSet [] start (some 0)
        fScore := mapSet [] start (some (heuristic endP start.1 start.2)) } := by
    intro k hk
    cases hk
  have hcardeq : (cellFinset g).card = (g.rows * g.cols).toNat := by
    unfold cellFinset
    rw [Finset.card_product, Int.card_Icc, Int.card_Icc]
    have e1 : g.rows - 1 + 1 - 0 = g.rows := by ring
    have e2 : g.cols - 1 + 1 - 0 = g.cols := by ring
    rw [e1, e2, ← toNat_mul_of_nonneg (by omega) (by omega)]
  obtain ⟨st2, n, heq, hS2, he2⟩ := solveLoop_inv hsym hacyc he hreach
    ((g.rows * g.cols).toNat)
    { openSet := PriorityQueue.enqueue jsLeB ⟨[]⟩ start (some 0)
      closedSet := []
      cameFrom := []
      gScore := mapSet [] start (some 0)
      fScore := mapSet [] start (some (heuristic endP start.1 start.2)) }
    hSinit hQinit hCEinit
    (by
      show (cellFinset g).card ≤ (g.rows * g.cols).toNat + ([] : List Key).length
      rw [hcardeq]
      simp)
  refine ⟨n, reconstructPath st2.cameFrom st2.cameFrom.length endP, ?_, ?_⟩
  · simp only [solveMaze, Bool.false_eq_true, if_false]
    rw [heq]
    rfl
  · exact reconstructPath_length hS2 st2.cameFrom.length endP he2 (cameFrom_length_ge hS2 he2)

theorem wallSym_gW2 : wallSym gW2 := by
  intro r c d hv hv2
  rw [isValidCell_iff] at hv
  simp only [gW2] at hv
  cases d
  · exfalso
    rw [isValidCell_iff] at hv2
    simp only [getCellInDirection, gW2] at hv2
    omega
  · rw [isValidCell_iff] at hv2
    simp only [getCellInDirection, gW2] at hv2
    have hr : r = 0 := by omega
    have hc : c = 0 := by omega
    subst hr
    subst hc
    decide
  · exfalso
    rw [isValidCell_iff] at hv2
    simp only [getCellInDirection, gW2] at hv2
    omega
  · rw [isValidCell_iff] at hv2
    simp only [getCellInDirection, gW2] at hv2
    have hr : r = 0 := by omega
    have hc : c = 1 := by omega
    subst hr
    subst hc
    decide

theorem gW2_adj {p q : Pos} : (carvedGraph gW2).Adj p q ↔
    (p = ((0, 0) : Pos) ∧ q = ((0, 1) : Pos)) ∨
      (p = ((0, 1) : Pos) ∧ q = ((0, 0) : Pos)) := by
  constructor
  · intro h
    obtain ⟨hvp, hvq⟩ := adj_valid h
    rw [isValidCell_iff] at hvp hvq
    simp only [gW2] at hvp hvq
    have hne := h.ne
    have hp1 : p.1 = 0 := by omega
    have hq1 : q.1 = 0 := by omega
    have hp2 : p.2 = 0 ∨ p.2 = 1 := by omega
    have hq2 : q.2 = 0 ∨ q.2 = 1 := by omega
    rcases hp2 with hp2 | hp2 <;> rcases hq2 with hq2 | hq2
    · exact absurd (Prod.ext (by omega) (by omega)) hne
    · exact Or.inl ⟨Prod.ext hp1 hp2, Prod.ext hq1 hq2⟩
    · exact Or.inr ⟨Prod.ext hp1 hp2, Prod.ext hq1 hq2⟩
    · exact absurd (Prod.ext (by omega) (by omega)) hne
  · intro h
    rcases h with ⟨hp, hq⟩ | ⟨hp, hq⟩ <;> subst hp <;> subst hq
    · exact carvedGraph_adj.mpr (Or.inl (by decide))
    · exact carvedGraph_adj.mpr (Or.inl (by decide))

theorem gW2_acyclic : (carvedGraph gW2).IsAcyclic := by
  intro v c hc
  have h3 := hc.three_le_length
  have hnd := hc.edges_nodup
  have hall : ∀ e ∈ c.edges, e = s(((0, 0) : Pos), ((0, 1) : Pos)) := by
    intro e heMem
    revert heMem
    refine Sym2.ind (fun x y => ?_) e
    intro hm
    have hadj := SimpleGraph.Walk.adj_of_mem_edges c hm
    rcases gW2_adj.mp hadj with ⟨hx, hy⟩ | ⟨hx, hy⟩ <;> subst hx <;> subst hy
    · rfl
    · exact Sym2.eq_swap
  have hlen : 3 ≤ c.edges.length := by
    rw [SimpleGraph.Walk.length_edges]
    exact h3
  cases hE : c.edges with
  | nil =>
    rw [hE] at hlen
    simp at hlen
  | cons e1 tl =>
    cases tl with
    | nil =>
      rw [hE] at hlen
      simp at hlen
    | cons e2 tl2 =>
      have h1 := hall e1 (by rw [hE]; simp)
      have h2 := hall e2 (by rw [hE]; simp)
      rw [hE, List.nodup_cons] at hnd
      refine hnd.1 ?_
      rw [h1, h2]
      exact List.mem_cons_self _ _

theorem gW2_conn : ∀ p : Pos, isValidCell gW2 p.1 p.2 = true →
    (carvedGraph gW2).Reachable ((0, 0) : Pos) p := by
  intro p hv
  rw [isValidCell_iff] at hv
  simp only [gW2] at hv
  have h1 : p.1 = 0 := by omega
  rcases (by omega : p.2 = 0 ∨ p.2 = 1) with h2 | h2
  · have hp : p = ((0, 0) : Pos) := Prod.ext h1 h2
    rw [hp]
  · have hp : p = ((0, 1) : Pos) := Prod.ext h1 h2
    rw [hp]
    exact (gW2_adj.mpr (Or.inl ⟨rfl, rfl⟩)).reachable

/-- Concrete cross-check on the 1×2 corridor: two dequeues, the two-cell
path. -/
theorem solveMaze_gW2_eval :
    solveMaze gW2 ((0, 0) : Pos) ((0, 1) : Pos) false =
      some (true, 2, [((0, 0) : Pos), ((0, 1) : Pos)]) := by
  rfl

/-- Witness for C2: on the fully carved 1×2 corridor with Start `(0,0)`
and End `(0,1)` the hypotheses hold concretely and the solver returns a
path of length `dist + 1`. -/
theorem solveMaze_tree_shortest_witness :
    isValidCell gW2 0 0 = true ∧
      (∃ n path, solveMaze gW2 ((0, 0) : Pos) ((0, 1) : Pos) false = some (true, n, path) ∧
        path.length = (carvedGraph gW2).dist ((0, 0) : Pos) ((0, 1) : Pos) + 1) :=
  ⟨by decide,
    solveMaze_tree_shortest gW2 (0, 0) (0, 1) (by decide) (by decide)
      wallSym_gW2 gW2_acyclic gW2_conn⟩

end Maze
